import Mathlib

/-!
Verification of the response-parsing layer of the Search_Assistant repository
(src/ai_utils.py, src/gpt_helper.py).

The Python functions are shallowly embedded as executable Lean functions over
lists of characters.  A Python string is modelled as a `List Char`; the Python
`str.strip` / `re` whitespace class is modelled by its ASCII members, which is
all the source code ever exercises.
-/

namespace SearchAssistant

/-- ASCII whitespace as recognised by Python's str.strip and the regex class \s. -/
def pyIsSpace (c : Char) : Bool :=
  c = ' ' || c = '\t' || c = '\n' || c = '\r' || c = '\x0b' || c = '\x0c'

/-- Drop trailing whitespace characters (the right half of Python str.strip). -/
def dropTrailWS : List Char → List Char
  | [] => []
  | c :: rest =>
    match dropTrailWS rest with
    | [] => if pyIsSpace c then [] else [c]
    | r => c :: r

/-- Python `str.strip()`: remove leading and trailing whitespace. -/
def pyStrip (s : List Char) : List Char :=
  dropTrailWS (s.dropWhile pyIsSpace)

/-- Python `str.split('\n')`: split on every newline, keeping empty pieces.
    `linesOf [] = [[]]` just as `''.split('\n') == ['']`. -/
def linesOf : List Char → List (List Char)
  | [] => [[]]
  | c :: rest =>
    if c = '\n' then [] :: linesOf rest
    else
      match linesOf rest with
      | [] => [[c]]
      | l :: ls => (c :: l) :: ls

/-- `re.sub(r'\*\*|__', '', text)`: delete every (left-to-right, non-overlapping)
    occurrence of the two-character sequences ** and __. -/
def removeEmph : List Char → List Char
  | [] => []
  | [c] => [c]
  | c :: d :: rest =>
    if (c = '*' ∧ d = '*') ∨ (c = '_' ∧ d = '_') then removeEmph rest
    else c :: removeEmph (d :: rest)

/-- `re.sub(r'^[-*\s]*', '', line)`: drop the leading run of dashes, asterisks
    and whitespace. -/
def stripBullets (s : List Char) : List Char :=
  s.dropWhile (fun c => c = '-' || c = '*' || pyIsSpace c)

/-- Python `str.capitalize()`: first character uppercased, the rest lowercased. -/
def pyCapitalize : List Char → List Char
  | [] => []
  | c :: rest => c.toUpper :: rest.map Char.toLower

/-- Update-or-append on an association list, mirroring assignment into a Python
    dict: an existing key keeps its position and gets the new value, a new key
    is appended at the end. -/
def assocSet {β : Type} : List (List Char × β) → List Char → β → List (List Char × β)
  | [], k, v => [(k, v)]
  | (k', v') :: rest, k, v =>
    if k' = k then (k, v) :: rest else (k', v') :: assocSet rest k v

/-! ## parse_pico (src/ai_utils.py lines 257-287) -/

def popLabel : List Char := ['P', 'o', 'p', 'u', 'l', 'a', 't', 'i', 'o', 'n']
def intLabel : List Char := ['I', 'n', 't', 'e', 'r', 'v', 'e', 'n', 't', 'i', 'o', 'n']
def compLabel : List Char := ['C', 'o', 'm', 'p', 'a', 'r', 'i', 's', 'o', 'n']
def outLabel : List Char := ['O', 'u', 't', 'c', 'o', 'm', 'e']

/-- One alternative of the match
    `re.match(r'^(Population|Intervention|Comparison|Outcome)\s*:\s*(.*)', line, re.IGNORECASE)`
    followed by `key = match.group(1).capitalize()` and `value = match.group(2).strip()`.
    Returns the (capitalized) key together with the stripped value. -/
def tryLabel (lbl : List Char) (l : List Char) : Option (List Char × List Char) :=
  if (l.take lbl.length).map Char.toLower = lbl.map Char.toLower then
    match (l.drop lbl.length).dropWhile pyIsSpace with
    | ':' :: v => some (pyCapitalize (l.take lbl.length), pyStrip v)
    | _ => none
  else none

/-- The whole alternation of the four labels.  The four labels start with four
    distinct letters, so at most one alternative can match. -/
def matchPicoLine (l : List Char) : Option (List Char × List Char) :=
  (tryLabel popLabel l).orElse fun _ =>
    (tryLabel intLabel l).orElse fun _ =>
      (tryLabel compLabel l).orElse fun _ =>
        tryLabel outLabel l

/-- `{'Population': '', 'Intervention': '', 'Comparison': '', 'Outcome': ''}` -/
def picoInit : List (List Char × List Char) :=
  [(popLabel, []), (intLabel, []), (compLabel, []), (outLabel, [])]

/-- Per-line processing in the parse_pico loop: strip the line, strip leading
    bullet characters, then attempt the label match and store the result. -/
def picoStep (d : List (List Char × List Char)) (line : List Char) :
    List (List Char × List Char) :=
  match matchPicoLine (stripBullets (pyStrip line)) with
  | some (k, v) => assocSet d k v
  | none => d

/-- `parse_pico` from src/ai_utils.py: remove markdown emphasis markers, strip
    the text, split into lines and fold the per-line matcher over them. -/
def parsePicoCore (s : List Char) : List (List Char × List Char) :=
  (linesOf (pyStrip (removeEmph s))).foldl picoStep picoInit

def parse_pico (s : String) : List (List Char × List Char) :=
  parsePicoCore s.data

/-! ## parse_concepts (src/ai_utils.py lines 289-306) -/

/-- `re.sub(r'^\d+\.\s*', '', line)`: if the line starts with one or more ASCII
    digits followed by a literal dot, remove them and any following whitespace;
    otherwise leave the line unchanged. -/
def stripNumDot (l : List Char) : List Char :=
  if l.takeWhile Char.isDigit ≠ [] ∧ (l.drop (l.takeWhile Char.isDigit).length).head? = some '.' then
    (l.drop ((l.takeWhile Char.isDigit).length + 1)).dropWhile pyIsSpace
  else l

/-- The per-line transformation of parse_concepts:
    `concept = re.sub(r'^\d+\.\s*', '', line).strip()`. -/
def conceptOfLine (l : List Char) : List Char :=
  pyStrip (stripNumDot l)

/-- `parse_concepts` from src/ai_utils.py: strip the text, split into lines,
    apply the per-line transformation, keep the non-empty results in order. -/
def parseConceptsCore (s : List Char) : List (List Char) :=
  (linesOf (pyStrip s)).foldl
    (fun acc line =>
      let c := conceptOfLine line
      if c = [] then acc else acc ++ [c]) []

def parse_concepts (s : String) : List (List Char) :=
  parseConceptsCore s.data

/-! ## parse_search_terms_all (src/ai_utils.py lines 308-354) -/

def conceptHdr : List Char := ['C', 'o', 'n', 'c', 'e', 'p', 't', ':']
def meshHdr : List Char := ['M', 'e', 'S', 'H', ' ', 'T', 'e', 'r', 'm', 's', ':']
def textHdr : List Char := ['T', 'e', 'x', 't', ' ', 'T', 'e', 'r', 'm', 's', ':']

/-- `re.split(r'\n(?=Concept:)', terms_output)`: cut the text at every newline
    that is immediately followed by the literal `Concept:`; the newline itself
    is consumed, the following block starts at `Concept:`. -/
def splitBlocks : List Char → List (List Char)
  | [] => [[]]
  | c :: rest =>
    if c = '\n' ∧ conceptHdr.isPrefixOf rest then [] :: splitBlocks rest
    else
      match splitBlocks rest with
      | [] => [[c]]
      | b :: bs => (c :: b) :: bs

/-- The `current_section` variable of the block loop. -/
inductive Sec where
  | noSec
  | meshSec
  | textSec
deriving DecidableEq

/-- The loop state of the block loop: concept_name, mesh_terms, text_terms,
    current_section. -/
structure BState where
  name : List Char
  mesh : List (List Char)
  text : List (List Char)
  sec : Sec
deriving DecidableEq

/-- One iteration of the `for line in lines` loop inside parse_search_terms_all.
    The line is stripped first; the header tests are literal, case-sensitive
    `str.startswith` checks. -/
def blockStep (st : BState) (line : List Char) : BState :=
  let l := pyStrip line
  if conceptHdr.isPrefixOf l then { st with name := pyStrip (l.drop conceptHdr.length) }
  else if meshHdr.isPrefixOf l then { st with sec := Sec.meshSec }
  else if textHdr.isPrefixOf l then { st with sec := Sec.textSec }
  else if l.head? = some '-' then
    match st.sec with
    | Sec.meshSec => { st with mesh := st.mesh ++ [pyStrip (l.drop 1)] }
    | Sec.textSec => { st with text := st.text ++ [pyStrip (l.drop 1)] }
    | Sec.noSec => st
  else st

/-- The two term lists recorded for one concept. -/
structure TermEntry where
  mesh : List (List Char)
  text : List (List Char)
deriving DecidableEq

/-- Processing of one block: strip it, split into lines, run the line loop, and
    if a non-empty concept name was found return it with the collected lists. -/
def processBlock (b : List Char) : Option (List Char × TermEntry) :=
  let fin := (linesOf (pyStrip b)).foldl blockStep ⟨[], [], [], Sec.noSec⟩
  if fin.name = [] then none else some (fin.name, ⟨fin.mesh, fin.text⟩)

/-- `parse_search_terms_all` from src/ai_utils.py: split the text into blocks
    before each `Concept:` line and accumulate the per-block results into a
    dict (insertion-ordered association list). -/
def parseSearchTermsCore (t : List Char) : List (List Char × TermEntry) :=
  (splitBlocks t).foldl
    (fun d b =>
      match processBlock b with
      | some (k, e) => assocSet d k e
      | none => d) []

def parse_search_terms_all (s : String) : List (List Char × TermEntry) :=
  parseSearchTermsCore s.data

/-! ## the four generate entry points (src/ai_utils.py) and gpt_api_call
    (src/gpt_helper.py)

    The network call to the LLM is the opaque external collaborator; it is
    modelled by its outcome, `Except String (List Char)`: either the API call
    failed, or it returned the reply text (possibly empty).  Inside the `try`
    block of each entry point no further exception can occur once the reply
    text exists, so the entry point simply strips and parses it; an API
    failure is re-raised as the generic message of the `except` clause. -/

def generate_pico_from_title (llm : Except String (List Char)) :
    Except String (List (List Char × List Char)) :=
  match llm with
  | .error _ => .error "An error occurred while generating PICO elements from the title."
  | .ok c => .ok (parsePicoCore (pyStrip c))

def refine_pico_elements (_pico : List (List Char × List Char))
    (llm : Except String (List Char)) :
    Except String (List (List Char × List Char)) :=
  match llm with
  | .error _ => .error "An error occurred while refining the PICO elements."
  | .ok c => .ok (parsePicoCore (pyStrip c))

def generate_concepts_from_pico (_pico : List (List Char × List Char))
    (llm : Except String (List Char)) :
    Except String (List (List Char)) :=
  match llm with
  | .error _ => .error "An error occurred while generating concepts from the PICO elements."
  | .ok c => .ok (parseConceptsCore (pyStrip c))

def generate_search_terms_all (_concepts : List (List Char))
    (llm : Except String (List Char)) :
    Except String (List (List Char × TermEntry)) :=
  match llm with
  | .error _ => .error "An error occurred while generating search terms."
  | .ok c => .ok (parseSearchTermsCore (pyStrip c))

/-- `gpt_api_call` from src/gpt_helper.py, reduced to the part relevant here:
    the reply content is stripped and, if nothing remains, the declared failure
    `RuntimeError("LLM returned no content to parse")` is raised. -/
def gpt_api_call (content : List Char) : Except String (List Char) :=
  let c := pyStrip content
  if c = [] then .error "LLM returned no content to parse" else .ok c

end SearchAssistant

namespace SearchAssistant

/-! ## Character-level lemmas -/

theorem char_toUpper_toLower (c : Char) : c.toLower.toUpper = c.toUpper := by
  have hc := Char.ofNat_toNat c
  rcases Nat.lt_or_ge c.toNat 65 with h | h1
  · have hl : c.toLower = c := by
      simp only [Char.toLower]
      rw [if_neg]
      omega
    rw [hl]
  · rcases Nat.lt_or_ge 90 c.toNat with h2 | h2
    · have hl : c.toLower = c := by
        simp only [Char.toLower]
        rw [if_neg]
        omega
      rw [hl]
    · simp only [Char.toLower]
      rw [if_pos ⟨h1, h2⟩]
      set n := c.toNat with hn
      interval_cases n <;> (rw [← hc]; decide)

theorem pyCapitalize_congr {t l : List Char}
    (h : t.map Char.toLower = l.map Char.toLower) : pyCapitalize t = pyCapitalize l := by
  cases t with
  | nil => cases l with
    | nil => rfl
    | cons b bs => simp at h
  | cons a as =>
    cases l with
    | nil => simp at h
    | cons b bs =>
      simp only [List.map_cons, List.cons.injEq] at h
      simp only [pyCapitalize, h.2, List.cons.injEq, and_true]
      rw [← char_toUpper_toLower a, ← char_toUpper_toLower b, h.1]

/-! ## Whitespace and strip lemmas -/

theorem dropTrailWS_eq_nil {s : List Char} (h : ∀ a ∈ s, pyIsSpace a) :
    dropTrailWS s = [] := by
  induction s with
  | nil => rfl
  | cons c rest ih =>
    have hrest : dropTrailWS rest = [] := ih fun a ha => h a (List.mem_cons_of_mem c ha)
    simp only [dropTrailWS, hrest, if_pos (h c (List.mem_cons_self c rest))]

theorem dropTrailWS_append_sp {w : List Char} (x : List Char)
    (h : ∀ a ∈ w, pyIsSpace a) : dropTrailWS (x ++ w) = dropTrailWS x := by
  induction x with
  | nil => simp [dropTrailWS_eq_nil h, dropTrailWS]
  | cons c rest ih => simp only [List.cons_append, dropTrailWS, List.append_eq, ih]

theorem pyStrip_sp_cons {c : Char} (x : List Char) (h : pyIsSpace c) :
    pyStrip (c :: x) = pyStrip x := by
  simp only [pyStrip, List.dropWhile_cons, h, if_true]

theorem pyStrip_sp_prepend {w : List Char} (x : List Char)
    (h : ∀ a ∈ w, pyIsSpace a) : pyStrip (w ++ x) = pyStrip x := by
  induction w with
  | nil => rfl
  | cons c rest ih =>
    rw [List.cons_append, pyStrip_sp_cons _ (h c (List.mem_cons_self c rest))]
    exact ih fun a ha => h a (List.mem_cons_of_mem c ha)

theorem pyStrip_sp_append {w : List Char} (x : List Char)
    (h : ∀ a ∈ w, pyIsSpace a) : pyStrip (x ++ w) = pyStrip x := by
  unfold pyStrip
  rw [List.dropWhile_append]
  by_cases hx : (x.dropWhile pyIsSpace).isEmpty
  · have hw : w.dropWhile pyIsSpace = [] :=
      List.dropWhile_eq_nil_iff.mpr h
    rw [if_pos hx, hw, List.isEmpty_iff.mp hx]
  · rw [if_neg hx, dropTrailWS_append_sp _ h]

theorem pyStrip_allsp {s : List Char} (h : ∀ a ∈ s, pyIsSpace a) :
    pyStrip s = [] := by
  have := pyStrip_sp_prepend [] h
  simpa using this

theorem dropWhile_sp_eq_self {s : List Char}
    (h : ∀ c, s.head? = some c → pyIsSpace c = false) :
    s.dropWhile pyIsSpace = s := by
  cases s with
  | nil => rfl
  | cons c rest => simp [List.dropWhile_cons, h c rfl]

theorem dropTrailWS_eq_self {s : List Char}
    (h : ∀ c, s.getLast? = some c → pyIsSpace c = false) :
    dropTrailWS s = s := by
  induction s with
  | nil => rfl
  | cons c rest ih =>
    cases hr : rest with
    | nil =>
      subst hr
      have hc := h c (by simp)
      simp [dropTrailWS, hc]
    | cons d r =>
      subst hr
      have hrest : dropTrailWS (d :: r) = d :: r := ih (by
        intro a ha
        apply h
        rw [List.getLast?_cons_cons]
        exact ha)
      rw [dropTrailWS, hrest]

theorem pyStrip_eq_self {s : List Char}
    (hh : ∀ c, s.head? = some c → pyIsSpace c = false)
    (hl : ∀ c, s.getLast? = some c → pyIsSpace c = false) :
    pyStrip s = s := by
  unfold pyStrip
  rw [dropWhile_sp_eq_self hh, dropTrailWS_eq_self hl]

/-! ## linesOf lemmas -/

theorem linesOf_ne_nil (s : List Char) : linesOf s ≠ [] := by
  cases s with
  | nil => simp [linesOf]
  | cons c rest =>
    rw [linesOf]
    split
    · simp
    · split <;> simp

theorem linesOf_cons_newline (rest : List Char) :
    linesOf ('\n' :: rest) = [] :: linesOf rest := by
  rw [linesOf, if_pos rfl]

theorem linesOf_cons_ne {c : Char} (rest : List Char) (h : ¬c = '\n') :
    linesOf (c :: rest) = (c :: (linesOf rest).headD []) :: (linesOf rest).tail := by
  rw [linesOf, if_neg h]
  cases hr : linesOf rest with
  | nil => exact absurd hr (linesOf_ne_nil rest)
  | cons l ls => simp

theorem linesOf_append_newline (x y : List Char) :
    linesOf (x ++ '\n' :: y) = linesOf x ++ linesOf y := by
  induction x with
  | nil => simp [linesOf_cons_newline, linesOf]
  | cons c x' ih =>
    by_cases hc : c = '\n'
    · subst hc
      rw [List.cons_append, linesOf_cons_newline, linesOf_cons_newline, ih, List.cons_append]
    · rw [List.cons_append, linesOf_cons_ne _ hc, linesOf_cons_ne _ hc, ih]
      cases hx : linesOf x' with
      | nil => exact absurd hx (linesOf_ne_nil x')
      | cons l ls => simp

theorem linesOf_append (x y : List Char) :
    linesOf (x ++ y) =
      (linesOf x).dropLast ++
        ((linesOf x).getLastD [] ++ (linesOf y).headD []) :: (linesOf y).tail := by
  induction x with
  | nil =>
    cases hy : linesOf y with
    | nil => exact absurd hy (linesOf_ne_nil y)
    | cons l ls => simp [linesOf, hy]
  | cons c x' ih =>
    by_cases hc : c = '\n'
    · subst hc
      rw [List.cons_append, linesOf_cons_newline, ih, linesOf_cons_newline]
      cases hx : linesOf x' with
      | nil => exact absurd hx (linesOf_ne_nil x')
      | cons l ls => simp [List.getLastD_cons]
    · rw [List.cons_append, linesOf_cons_ne _ hc, linesOf_cons_ne _ hc, ih]
      cases hx : linesOf x' with
      | nil => exact absurd hx (linesOf_ne_nil x')
      | cons l ls =>
        cases ls with
        | nil => simp
        | cons m ms => simp [List.getLastD_cons]

theorem mem_of_mem_linesOf {s l : List Char} (hl : l ∈ linesOf s) :
    ∀ a ∈ l, a ∈ s := by
  induction s generalizing l with
  | nil =>
    simp only [linesOf, List.mem_singleton] at hl
    subst hl
    simp
  | cons c rest ih =>
    by_cases hc : c = '\n'
    · subst hc
      rw [linesOf_cons_newline] at hl
      rcases List.mem_cons.mp hl with h | h
      · subst h
        simp
      · intro a ha
        exact List.mem_cons_of_mem _ (ih h a ha)
    · rw [linesOf_cons_ne _ hc] at hl
      rcases List.mem_cons.mp hl with h | h
      · subst h
        intro a ha
        rcases List.mem_cons.mp ha with h' | h'
        · subst h'
          simp
        · apply List.mem_cons_of_mem
          apply ih _ a h'
          cases hx : linesOf rest with
          | nil => exact absurd hx (linesOf_ne_nil rest)
          | cons l' ls' => simp
      · intro a ha
        apply List.mem_cons_of_mem
        apply ih _ a ha
        cases hx : linesOf rest with
        | nil => exact absurd hx (linesOf_ne_nil rest)
        | cons l' ls' =>
          rw [hx] at h
          simp only [List.tail_cons] at h
          exact List.mem_cons_of_mem _ h

/-! ## removeEmph lemmas -/

theorem removeEmph_cons_newline (y : List Char) :
    removeEmph ('\n' :: y) = '\n' :: removeEmph y := by
  cases y <;> simp [removeEmph]

theorem removeEmph_append_newline (x y : List Char) :
    removeEmph (x ++ '\n' :: y) = removeEmph x ++ '\n' :: removeEmph y := by
  induction x using removeEmph.induct with
  | case1 => simp [removeEmph, removeEmph_cons_newline]
  | case2 c => simp [removeEmph, removeEmph_cons_newline]
  | case3 c d rest hp ih => simp [removeEmph, hp, ih]
  | case4 c d rest hp ih =>
    simp only [List.cons_append] at ih
    simp [removeEmph, hp, ih]

theorem mem_removeEmph {s : List Char} {a : Char} (h : a ∈ removeEmph s) : a ∈ s := by
  induction s using removeEmph.induct with
  | case1 => simp [removeEmph] at h
  | case2 c =>
    rw [removeEmph] at h
    exact h
  | case3 c d rest hp ih =>
    rw [removeEmph, if_pos hp] at h
    simp [ih h]
  | case4 c d rest hp ih =>
    rw [removeEmph, if_neg hp] at h
    rcases List.mem_cons.mp h with h' | h'
    · simp [h']
    · simpa using List.mem_cons_of_mem c (ih h')

theorem getLast?_cons_of_ne_nil {c : Char} {l : List Char} (h : l ≠ []) :
    (c :: l).getLast? = l.getLast? := by
  cases l with
  | nil => exact absurd rfl h
  | cons d r => exact List.getLast?_cons_cons

theorem removeEmph_append_safe (xs ys : List Char)
    (h1 : ¬(xs.getLast? = some ('*' : Char) ∧ ys.head? = some ('*' : Char)))
    (h2 : ¬(xs.getLast? = some ('_' : Char) ∧ ys.head? = some ('_' : Char))) :
    removeEmph (xs ++ ys) = removeEmph xs ++ removeEmph ys := by
  induction xs using removeEmph.induct with
  | case1 => simp [removeEmph]
  | case2 c =>
    cases ys with
    | nil => simp [removeEmph]
    | cons e ys' =>
      simp only [List.getLast?_singleton, List.head?_cons] at h1 h2
      have hcond : ¬(c = '*' ∧ e = '*' ∨ c = '_' ∧ e = '_') := by
        rintro (⟨hc, he⟩ | ⟨hc, he⟩)
        · exact h1 ⟨by rw [hc], by rw [he]⟩
        · exact h2 ⟨by rw [hc], by rw [he]⟩
      simp only [List.singleton_append, removeEmph, if_neg hcond]
  | case3 c d rest hp ih =>
    rcases List.eq_nil_or_concat rest with hr | ⟨r', a, hr⟩
    · subst hr
      rcases hp with ⟨hc, hd⟩ | ⟨hc, hd⟩ <;> subst hc <;> subst hd <;>
        simp [removeEmph]
    · have hne : rest ≠ [] := by simp [hr]
      have hlast : (c :: d :: rest).getLast? = rest.getLast? := by
        rw [getLast?_cons_of_ne_nil (by simp [hr] : d :: rest ≠ [])]
        exact getLast?_cons_of_ne_nil hne
      rw [hlast] at h1 h2
      rw [List.cons_append, List.cons_append, removeEmph, if_pos hp,
        removeEmph, if_pos hp]
      exact ih h1 h2
  | case4 c d rest hp ih =>
    have hlast : (c :: d :: rest).getLast? = (d :: rest).getLast? :=
      getLast?_cons_of_ne_nil (by simp)
    rw [hlast] at h1 h2
    have := ih h1 h2
    simp only [List.cons_append] at this ⊢
    rw [removeEmph, if_neg hp]
    rw [show removeEmph (c :: d :: rest) = c :: removeEmph (d :: rest) from by
      rw [removeEmph, if_neg hp]]
    simp only [List.cons_append, this]

/-! ## splitBlocks lemmas -/

theorem splitBlocks_ne_nil (s : List Char) : splitBlocks s ≠ [] := by
  cases s with
  | nil => simp [splitBlocks]
  | cons c rest =>
    rw [splitBlocks]
    split
    · simp
    · split <;> simp

/-- Re-joining the blocks with a newline restores the original text: the split
    consumes exactly one newline at each cut. -/
def intercalateNL : List (List Char) → List Char
  | [] => []
  | b :: bs => b ++ (if bs.isEmpty then [] else '\n' :: intercalateNL bs)

theorem splitBlocks_join (t : List Char) : intercalateNL (splitBlocks t) = t := by
  induction t with
  | nil => rfl
  | cons c rest ih =>
    rw [splitBlocks]
    split
    · rename_i hcond
      rw [intercalateNL,
        if_neg (by simpa using splitBlocks_ne_nil rest),
        List.nil_append, ih, hcond.1]
    · rename_i hcond
      cases hb : splitBlocks rest with
      | nil => exact absurd hb (splitBlocks_ne_nil rest)
      | cons b bs =>
        rw [hb] at ih
        cases bs with
        | nil =>
          simp only [intercalateNL, List.isEmpty_nil, if_true, List.append_nil] at ih ⊢
          rw [ih]
        | cons b' bs' =>
          simp only [intercalateNL, List.isEmpty_cons, if_false, Bool.false_eq_true,
            List.cons_append] at ih ⊢
          rw [ih]

theorem linesOf_intercalateNL (bs : List (List Char)) (h : bs ≠ []) :
    linesOf (intercalateNL bs) = (bs.map linesOf).flatten := by
  induction bs with
  | nil => exact absurd rfl h
  | cons b bs' ih =>
    cases bs' with
    | nil => simp [intercalateNL]
    | cons b' bs'' =>
      rw [show intercalateNL (b :: b' :: bs'') = b ++ '\n' :: intercalateNL (b' :: bs'')
          from by simp [intercalateNL],
        linesOf_append_newline, ih (by simp)]
      simp

theorem mem_linesOf_of_mem_splitBlocks {t b l : List Char}
    (hb : b ∈ splitBlocks t) (hl : l ∈ linesOf b) : l ∈ linesOf t := by
  have hj := splitBlocks_join t
  have := linesOf_intercalateNL (splitBlocks t) (splitBlocks_ne_nil t)
  rw [hj] at this
  rw [this]
  exact List.mem_flatten.mpr ⟨linesOf b, List.mem_map_of_mem linesOf hb, hl⟩

theorem splitBlocks_cons_split {c : Char} {rest : List Char}
    (h : c = '\n' ∧ conceptHdr.isPrefixOf rest) :
    splitBlocks (c :: rest) = [] :: splitBlocks rest := by
  rw [splitBlocks, if_pos h]

theorem splitBlocks_cons_ne {c : Char} {rest : List Char}
    (h : ¬(c = '\n' ∧ conceptHdr.isPrefixOf rest)) :
    splitBlocks (c :: rest) =
      (c :: (splitBlocks rest).headD []) :: (splitBlocks rest).tail := by
  rw [splitBlocks, if_neg h]
  cases hr : splitBlocks rest with
  | nil => exact absurd hr (splitBlocks_ne_nil rest)
  | cons b bs => simp

theorem splitBlocks_append_noNL {x : List Char} (y : List Char) (h : '\n' ∉ x) :
    splitBlocks (x ++ y) = (x ++ (splitBlocks y).headD []) :: (splitBlocks y).tail := by
  induction x with
  | nil =>
    cases hy : splitBlocks y with
    | nil => exact absurd hy (splitBlocks_ne_nil y)
    | cons b bs => simp [hy]
  | cons c x' ih =>
    have hc : ¬c = '\n' := fun hc => h (hc ▸ List.mem_cons_self c x')
    rw [List.cons_append, splitBlocks_cons_ne (fun hp => hc hp.1),
      ih (fun hm => h (List.mem_cons_of_mem c hm))]
    simp

theorem splitBlocks_noNL {x : List Char} (h : '\n' ∉ x) : splitBlocks x = [x] := by
  have := splitBlocks_append_noNL [] h
  simpa [splitBlocks] using this

/-! ## Lines of a stripped string trace back to lines of the string -/

theorem dropTrailWS_eq_nil_imp {s : List Char} (h : dropTrailWS s = []) :
    ∀ a ∈ s, pyIsSpace a := by
  induction s with
  | nil => simp
  | cons c rest ih =>
    rw [dropTrailWS] at h
    cases hr : dropTrailWS rest with
    | nil =>
      rw [hr] at h
      intro a ha
      rcases List.mem_cons.mp ha with h' | h'
      · subst h'
        by_contra hc
        rw [if_neg (by simpa using hc)] at h
        exact absurd h (by simp)
      · exact ih hr a h'
    | cons d r =>
      rw [hr] at h
      exact absurd h (by simp)

theorem dropTrailWS_decomp (s : List Char) :
    ∃ w, s = dropTrailWS s ++ w ∧ ∀ a ∈ w, pyIsSpace a := by
  induction s with
  | nil => exact ⟨[], rfl, by simp⟩
  | cons c rest ih =>
    obtain ⟨w, hw, hsp⟩ := ih
    rw [dropTrailWS]
    cases hr : dropTrailWS rest with
    | nil =>
      have hall : ∀ a ∈ rest, pyIsSpace a := dropTrailWS_eq_nil_imp hr
      by_cases hc : pyIsSpace c
      · refine ⟨c :: rest, ?_, ?_⟩
        · rw [if_pos hc]
          rfl
        · intro a ha
          rcases List.mem_cons.mp ha with h' | h'
          · subst h'
            exact hc
          · exact hall a h'
      · refine ⟨rest, ?_, hall⟩
        rw [if_neg hc]
        rfl
    | cons d r =>
      refine ⟨w, ?_, hsp⟩
      rw [hr] at hw
      simp [hw]

theorem getLastD_mem {α : Type} (l : List α) (d : α) (h : l ≠ []) :
    l.getLastD d ∈ l := by
  rw [List.getLastD_eq_getLast?, List.getLast?_eq_getLast _ h]
  exact List.getLast_mem h

theorem mem_linesOf_dropTrail {x l' : List Char}
    (h : l' ∈ linesOf (dropTrailWS x)) :
    ∃ l ∈ linesOf x, pyStrip l' = pyStrip l := by
  obtain ⟨w, hw, hsp⟩ := dropTrailWS_decomp x
  have hx : linesOf x =
      (linesOf (dropTrailWS x)).dropLast ++
        ((linesOf (dropTrailWS x)).getLastD [] ++ (linesOf w).headD []) ::
          (linesOf w).tail := by
    conv_lhs => rw [hw]
    exact linesOf_append _ _
  have hne := linesOf_ne_nil (dropTrailWS x)
  have hsplit : linesOf (dropTrailWS x) =
      (linesOf (dropTrailWS x)).dropLast ++ [(linesOf (dropTrailWS x)).getLast hne] :=
    (List.dropLast_append_getLast hne).symm
  rw [hsplit] at h
  rcases List.mem_append.mp h with h' | h'
  · refine ⟨l', ?_, rfl⟩
    rw [hx]
    exact List.mem_append_left _ h'
  · have hl' : l' = (linesOf (dropTrailWS x)).getLast hne := by simpa using h'
    have hlastD : (linesOf (dropTrailWS x)).getLastD [] =
        (linesOf (dropTrailWS x)).getLast hne := by
      rw [List.getLastD_eq_getLast?, List.getLast?_eq_getLast _ hne]
      rfl
    refine ⟨l' ++ (linesOf w).headD [], ?_, ?_⟩
    · rw [hx, hl', ← hlastD]
      exact List.mem_append_right _ (List.mem_cons_self _ _)
    · have hhd : (linesOf w).headD [] ∈ linesOf w := by
        cases hlw : linesOf w with
        | nil => exact absurd hlw (linesOf_ne_nil w)
        | cons m ms => simp
      have : ∀ a ∈ (linesOf w).headD [], pyIsSpace a :=
        fun a ha => hsp a (mem_of_mem_linesOf hhd a ha)
      rw [pyStrip_sp_append _ this]

theorem mem_linesOf_dropLead {x l' : List Char}
    (h : l' ∈ linesOf (x.dropWhile pyIsSpace)) :
    ∃ l ∈ linesOf x, pyStrip l' = pyStrip l := by
  have hw : x = x.takeWhile pyIsSpace ++ x.dropWhile pyIsSpace :=
    (List.takeWhile_append_dropWhile pyIsSpace x).symm
  have hsp : ∀ a ∈ x.takeWhile pyIsSpace, pyIsSpace a :=
    fun a ha => List.mem_takeWhile_imp ha
  have hx : linesOf x =
      (linesOf (x.takeWhile pyIsSpace)).dropLast ++
        ((linesOf (x.takeWhile pyIsSpace)).getLastD [] ++
          (linesOf (x.dropWhile pyIsSpace)).headD []) ::
          (linesOf (x.dropWhile pyIsSpace)).tail := by
    conv_lhs => rw [hw]
    exact linesOf_append _ _
  cases hld : linesOf (x.dropWhile pyIsSpace) with
  | nil => exact absurd hld (linesOf_ne_nil _)
  | cons m ms =>
    rw [hld] at h hx
    simp only [List.headD_cons, List.tail_cons] at hx
    rcases List.mem_cons.mp h with h' | h'
    · subst h'
      refine ⟨(linesOf (x.takeWhile pyIsSpace)).getLastD [] ++ l', ?_, ?_⟩
      · rw [hx]
        exact List.mem_append_right _ (List.mem_cons_self _ _)
      · have hgl : (linesOf (x.takeWhile pyIsSpace)).getLastD [] ∈
            linesOf (x.takeWhile pyIsSpace) :=
          getLastD_mem _ _ (linesOf_ne_nil _)
        have : ∀ a ∈ (linesOf (x.takeWhile pyIsSpace)).getLastD [], pyIsSpace a :=
          fun a ha => hsp a (mem_of_mem_linesOf hgl a ha)
        rw [pyStrip_sp_prepend _ this]
    · refine ⟨l', ?_, rfl⟩
      rw [hx]
      exact List.mem_append_right _ (List.mem_cons_of_mem _ h')

theorem mem_linesOf_pyStrip {s l' : List Char} (h : l' ∈ linesOf (pyStrip s)) :
    ∃ l ∈ linesOf s, pyStrip l' = pyStrip l := by
  unfold pyStrip at h
  obtain ⟨l₁, hl₁, he₁⟩ := mem_linesOf_dropTrail h
  obtain ⟨l, hl, he⟩ := mem_linesOf_dropLead hl₁
  exact ⟨l, hl, he₁.trans he⟩

/-! ## Idempotence of pyStrip -/

theorem dropWhile_sp_head {s : List Char} {c : Char}
    (h : (s.dropWhile pyIsSpace).head? = some c) : pyIsSpace c = false := by
  induction s with
  | nil => simp [List.dropWhile] at h
  | cons a rest ih =>
    rw [List.dropWhile_cons] at h
    by_cases ha : pyIsSpace a
    · rw [if_pos ha] at h
      exact ih h
    · rw [if_neg ha] at h
      simp only [List.head?_cons, Option.some.injEq] at h
      subst h
      simpa using ha

theorem dTW_head_of {s : List Char} {c : Char}
    (h : (dropTrailWS s).head? = some c) : s.head? = some c := by
  induction s with
  | nil => simp [dropTrailWS] at h
  | cons a rest ih =>
    rw [dropTrailWS] at h
    cases hr : dropTrailWS rest with
    | nil =>
      rw [hr] at h
      by_cases ha : pyIsSpace a
      · rw [if_pos ha] at h
        simp at h
      · rw [if_neg ha] at h
        simpa using h
    | cons d r =>
      rw [hr] at h
      simpa using h

theorem dTW_getLast {s : List Char} {c : Char}
    (h : (dropTrailWS s).getLast? = some c) : pyIsSpace c = false := by
  induction s with
  | nil => simp [dropTrailWS] at h
  | cons a rest ih =>
    rw [dropTrailWS] at h
    cases hr : dropTrailWS rest with
    | nil =>
      rw [hr] at h
      by_cases ha : pyIsSpace a
      · rw [if_pos ha] at h
        simp at h
      · rw [if_neg ha] at h
        simp only [List.getLast?_singleton, Option.some.injEq] at h
        subst h
        simpa using ha
    | cons d r =>
      rw [hr, getLast?_cons_of_ne_nil (by simp)] at h
      rw [← hr] at h
      exact ih h

theorem pyStrip_idem (s : List Char) : pyStrip (pyStrip s) = pyStrip s := by
  apply pyStrip_eq_self
  · intro c h
    exact dropWhile_sp_head (dTW_head_of h)
  · intro c h
    exact dTW_getLast h

/-! ## parse_concepts characterization -/

theorem parseConcepts_foldl (ls : List (List Char)) (acc : List (List Char)) :
    ls.foldl
      (fun acc line =>
        let c := conceptOfLine line
        if c = [] then acc else acc ++ [c]) acc
      = acc ++ (ls.map conceptOfLine).filter (fun c => c ≠ []) := by
  induction ls generalizing acc with
  | nil => simp
  | cons l ls ih =>
    rw [List.foldl_cons]
    by_cases h : conceptOfLine l = []
    · simp only [h, if_pos rfl]
      rw [ih]
      simp [h]
    · simp only [if_neg h]
      rw [ih]
      simp [h]

theorem parseConceptsCore_eq (t : List Char) :
    parseConceptsCore t =
      ((linesOf (pyStrip t)).map conceptOfLine).filter (fun c => c ≠ []) := by
  unfold parseConceptsCore
  rw [parseConcepts_foldl]
  simp

/-! ## parse_pico characterization -/

theorem tryLabel_some {lbl l k v : List Char} (h : tryLabel lbl l = some (k, v)) :
    k = pyCapitalize lbl := by
  unfold tryLabel at h
  split at h
  · rename_i hc
    split at h
    · simp only [Option.some.injEq, Prod.mk.injEq] at h
      rw [← h.1]
      exact pyCapitalize_congr hc
    · exact absurd h (by simp)
  · exact absurd h (by simp)

theorem matchPicoLine_key {l : List Char} {k v : List Char}
    (h : matchPicoLine l = some (k, v)) :
    k = popLabel ∨ k = intLabel ∨ k = compLabel ∨ k = outLabel := by
  unfold matchPicoLine at h
  cases h1 : tryLabel popLabel l with
  | some x =>
    rw [h1] at h
    simp only [Option.orElse] at h
    have hx : x = (k, v) := by simpa using h
    exact Or.inl ((tryLabel_some (hx ▸ h1)).trans (by decide))
  | none =>
    rw [h1] at h
    simp only [Option.orElse] at h
    cases h2 : tryLabel intLabel l with
    | some x =>
      rw [h2] at h
      simp only [Option.orElse] at h
      have hx : x = (k, v) := by simpa using h
      exact Or.inr (Or.inl ((tryLabel_some (hx ▸ h2)).trans (by decide)))
    | none =>
      rw [h2] at h
      simp only [Option.orElse] at h
      cases h3 : tryLabel compLabel l with
      | some x =>
        rw [h3] at h
        simp only [Option.orElse] at h
        have hx : x = (k, v) := by simpa using h
        exact Or.inr (Or.inr (Or.inl ((tryLabel_some (hx ▸ h3)).trans (by decide))))
      | none =>
        rw [h3] at h
        simp only [Option.orElse] at h
        exact Or.inr (Or.inr (Or.inr ((tryLabel_some h).trans (by decide))))

theorem foldl_picoStep_eq (ls : List (List Char)) (d : List (List Char × List Char)) :
    ls.foldl picoStep d =
      (ls.filterMap (fun l => matchPicoLine (stripBullets (pyStrip l)))).foldl
        (fun d p => assocSet d p.1 p.2) d := by
  induction ls generalizing d with
  | nil => rfl
  | cons l ls ih =>
    rw [List.foldl_cons, List.filterMap_cons]
    cases hm : matchPicoLine (stripBullets (pyStrip l)) with
    | none =>
      have hstep : picoStep d l = d := by
        unfold picoStep
        rw [hm]
      rw [hstep, ih]
    | some p =>
      have hstep : picoStep d l = assocSet d p.1 p.2 := by
        unfold picoStep
        rw [hm]
      rw [hstep, List.foldl_cons, ih]

/-- The assignments `pico_elements[key] = value` performed while scanning, in
    line order. -/
def picoMatches (t : List Char) : List (List Char × List Char) :=
  (linesOf (pyStrip (removeEmph t))).filterMap
    (fun l => matchPicoLine (stripBullets (pyStrip l)))

/-- The value the scan leaves for key k when the last assignment to k wins and
    d is the initial (default) value. -/
def lastMatch (ms : List (List Char × List Char)) (k : List Char) (d : List Char) :
    List Char :=
  ((ms.filter (fun p => p.1 = k)).map Prod.snd).getLastD d

theorem foldl_assocSet_four (ms : List (List Char × List Char))
    (h : ∀ p ∈ ms, p.1 = popLabel ∨ p.1 = intLabel ∨ p.1 = compLabel ∨ p.1 = outLabel)
    (v1 v2 v3 v4 : List Char) :
    ms.foldl (fun d p => assocSet d p.1 p.2)
      [(popLabel, v1), (intLabel, v2), (compLabel, v3), (outLabel, v4)] =
      [(popLabel, lastMatch ms popLabel v1), (intLabel, lastMatch ms intLabel v2),
       (compLabel, lastMatch ms compLabel v3), (outLabel, lastMatch ms outLabel v4)] := by
  induction ms generalizing v1 v2 v3 v4 with
  | nil => simp [lastMatch]
  | cons p ms ih =>
    have htail : ∀ q ∈ ms, q.1 = popLabel ∨ q.1 = intLabel ∨ q.1 = compLabel ∨
        q.1 = outLabel := fun q hq => h q (List.mem_cons_of_mem p hq)
    have ne12 : ¬(popLabel = intLabel) := by decide
    have ne13 : ¬(popLabel = compLabel) := by decide
    have ne14 : ¬(popLabel = outLabel) := by decide
    have ne21 : ¬(intLabel = popLabel) := by decide
    have ne23 : ¬(intLabel = compLabel) := by decide
    have ne24 : ¬(intLabel = outLabel) := by decide
    have ne31 : ¬(compLabel = popLabel) := by decide
    have ne32 : ¬(compLabel = intLabel) := by decide
    have ne34 : ¬(compLabel = outLabel) := by decide
    have ne41 : ¬(outLabel = popLabel) := by decide
    have ne42 : ¬(outLabel = intLabel) := by decide
    have ne43 : ¬(outLabel = compLabel) := by decide
    rw [List.foldl_cons]
    rcases h p (List.mem_cons_self p ms) with hk | hk | hk | hk
    · have hset : assocSet [(popLabel, v1), (intLabel, v2), (compLabel, v3),
          (outLabel, v4)] p.1 p.2 =
          [(popLabel, p.2), (intLabel, v2), (compLabel, v3), (outLabel, v4)] := by
        rw [hk]
        simp [assocSet]
      rw [hset, ih htail]
      have f1 : lastMatch (p :: ms) popLabel v1 = lastMatch ms popLabel p.2 := by
        unfold lastMatch
        rw [List.filter_cons_of_pos (by simp [hk]), List.map_cons, List.getLastD_cons]
      have f2 : lastMatch (p :: ms) intLabel v2 = lastMatch ms intLabel v2 := by
        unfold lastMatch
        rw [List.filter_cons_of_neg (by simp [hk, ne12])]
      have f3 : lastMatch (p :: ms) compLabel v3 = lastMatch ms compLabel v3 := by
        unfold lastMatch
        rw [List.filter_cons_of_neg (by simp [hk, ne13])]
      have f4 : lastMatch (p :: ms) outLabel v4 = lastMatch ms outLabel v4 := by
        unfold lastMatch
        rw [List.filter_cons_of_neg (by simp [hk, ne14])]
      rw [f1, f2, f3, f4]
    · have hset : assocSet [(popLabel, v1), (intLabel, v2), (compLabel, v3),
          (outLabel, v4)] p.1 p.2 =
          [(popLabel, v1), (intLabel, p.2), (compLabel, v3), (outLabel, v4)] := by
        rw [hk]
        simp [assocSet, ne12]
      rw [hset, ih htail]
      have f1 : lastMatch (p :: ms) popLabel v1 = lastMatch ms popLabel v1 := by
        unfold lastMatch
        rw [List.filter_cons_of_neg (by simp [hk, ne21])]
      have f2 : lastMatch (p :: ms) intLabel v2 = lastMatch ms intLabel p.2 := by
        unfold lastMatch
        rw [List.filter_cons_of_pos (by simp [hk]), List.map_cons, List.getLastD_cons]
      have f3 : lastMatch (p :: ms) compLabel v3 = lastMatch ms compLabel v3 := by
        unfold lastMatch
        rw [List.filter_cons_of_neg (by simp [hk, ne23])]
      have f4 : lastMatch (p :: ms) outLabel v4 = lastMatch ms outLabel v4 := by
        unfold lastMatch
        rw [List.filter_cons_of_neg (by simp [hk, ne24])]
      rw [f1, f2, f3, f4]
    · have hset : assocSet [(popLabel, v1), (intLabel, v2), (compLabel, v3),
          (outLabel, v4)] p.1 p.2 =
          [(popLabel, v1), (intLabel, v2), (compLabel, p.2), (outLabel, v4)] := by
        rw [hk]
        simp [assocSet, ne13, ne23]
      rw [hset, ih htail]
      have f1 : lastMatch (p :: ms) popLabel v1 = lastMatch ms popLabel v1 := by
        unfold lastMatch
        rw [List.filter_cons_of_neg (by simp [hk, ne31])]
      have f2 : lastMatch (p :: ms) intLabel v2 = lastMatch ms intLabel v2 := by
        unfold lastMatch
        rw [List.filter_cons_of_neg (by simp [hk, ne32])]
      have f3 : lastMatch (p :: ms) compLabel v3 = lastMatch ms compLabel p.2 := by
        unfold lastMatch
        rw [List.filter_cons_of_pos (by simp [hk]), List.map_cons, List.getLastD_cons]
      have f4 : lastMatch (p :: ms) outLabel v4 = lastMatch ms outLabel v4 := by
        unfold lastMatch
        rw [List.filter_cons_of_neg (by simp [hk, ne34])]
      rw [f1, f2, f3, f4]
    · have hset : assocSet [(popLabel, v1), (intLabel, v2), (compLabel, v3),
          (outLabel, v4)] p.1 p.2 =
          [(popLabel, v1), (intLabel, v2), (compLabel, v3), (outLabel, p.2)] := by
        rw [hk]
        simp [assocSet, ne14, ne24, ne34]
      rw [hset, ih htail]
      have f1 : lastMatch (p :: ms) popLabel v1 = lastMatch ms popLabel v1 := by
        unfold lastMatch
        rw [List.filter_cons_of_neg (by simp [hk, ne41])]
      have f2 : lastMatch (p :: ms) intLabel v2 = lastMatch ms intLabel v2 := by
        unfold lastMatch
        rw [List.filter_cons_of_neg (by simp [hk, ne42])]
      have f3 : lastMatch (p :: ms) compLabel v3 = lastMatch ms compLabel v3 := by
        unfold lastMatch
        rw [List.filter_cons_of_neg (by simp [hk, ne43])]
      have f4 : lastMatch (p :: ms) outLabel v4 = lastMatch ms outLabel p.2 := by
        unfold lastMatch
        rw [List.filter_cons_of_pos (by simp [hk]), List.map_cons, List.getLastD_cons]
      rw [f1, f2, f3, f4]

/-! ## Claim theorems -/


/-- C1 (counterexample).  The claim says that with caller-supplied original
    concepts Diabetes and Insulin, two blocks naming Diabetes and (lower-case)
    insulin are keyed by the original-cased strings Diabetes and Insulin.  The
    source function takes no caller-supplied concepts and performs no
    case-insensitive recovery: the key Insulin never appears, the key is the
    literal text insulin. -/
theorem claim_C1_counterexample :
    "Insulin".data ∉
      (parse_search_terms_all
        "Concept: Diabetes\nMeSH Terms:\n- a\nConcept: insulin\nMeSH Terms:\n- b").map
        Prod.fst ∧
    "insulin".data ∈
      (parse_search_terms_all
        "Concept: Diabetes\nMeSH Terms:\n- a\nConcept: insulin\nMeSH Terms:\n- b").map
        Prod.fst := by
  decide

/-- C1 (amended).  parse_search_terms_all keys each block by the concept name
    exactly as written in the raw text (trimmed); it receives no caller-supplied
    concept list, so a case-mismatched name such as insulin stays lower-case
    instead of being recovered to the caller's Insulin. -/
theorem claim_C1 :
    parse_search_terms_all
        "Concept: Diabetes\nMeSH Terms:\n- a\nConcept: insulin\nMeSH Terms:\n- b" =
      [("Diabetes".data, ⟨["a".data], []⟩), ("insulin".data, ⟨["b".data], []⟩)] := by
  decide

/-- C2 (counterexample).  The claim says parse_concepts strips bullet characters
    and numeric ordinals with a trailing parenthesis; the source only strips the
    regex ^\d+\.\s*, so the lines using 2) and - keep their markers. -/
theorem claim_C2_counterexample :
    parse_concepts "1. Diabetes\n2) Insulin therapy\n- Glycemic control" ≠
      ["Diabetes".data, "Insulin therapy".data, "Glycemic control".data] := by
  decide

/-- C2 (amended).  parse_concepts strips only a leading marker of the form
    digits-then-dot (with trailing whitespace); the ordinal style with a closing
    parenthesis and the bullet characters are left in place, so the example
    returns the second and third lines with their markers intact. -/
theorem claim_C2 :
    parse_concepts "1. Diabetes\n2) Insulin therapy\n- Glycemic control" =
      ["Diabetes".data, "2) Insulin therapy".data, "- Glycemic control".data] := by
  decide

/-- C4.  For every input text, parse_pico returns exactly the four keys
    Population, Intervention, Comparison, Outcome in that order and no others;
    the value of each key is the (trimmed) value of the last line whose label
    matched that key, the empty string when no line matched.  Matching is
    case-insensitive and the matched label is normalized to capitalized form:
    the second conjunct shows scrambled-case labels parsing to the
    capitalized keys. -/
theorem claim_C4 (t : List Char) :
    parsePicoCore t =
      [(popLabel, lastMatch (picoMatches t) popLabel []),
       (intLabel, lastMatch (picoMatches t) intLabel []),
       (compLabel, lastMatch (picoMatches t) compLabel []),
       (outLabel, lastMatch (picoMatches t) outLabel [])] ∧
    parse_pico "pOpULaTion: a\nINTERVENTION: b\ncomparison: c\noUTCOME: d" =
      [(popLabel, "a".data), (intLabel, "b".data), (compLabel, "c".data),
       (outLabel, "d".data)] := by
  constructor
  · unfold parsePicoCore picoInit picoMatches
    rw [foldl_picoStep_eq]
    exact foldl_assocSet_four _
      (fun p hp => by
        obtain ⟨l, _, hm⟩ := List.mem_filterMap.mp hp
        obtain ⟨k, v⟩ := p
        exact matchPicoLine_key hm) [] [] [] []
  · decide

/-! ## parse_search_terms_all: key provenance -/

theorem blockStep_name (st : BState) (l : List Char) :
    (blockStep st l).name =
      if conceptHdr.isPrefixOf (pyStrip l) then
        pyStrip ((pyStrip l).drop conceptHdr.length)
      else st.name := by
  obtain ⟨n, m, tx, sec⟩ := st
  unfold blockStep
  by_cases h1 : conceptHdr.isPrefixOf (pyStrip l)
  · simp [h1]
  · simp only [if_neg h1]
    by_cases h2 : meshHdr.isPrefixOf (pyStrip l)
    · simp [h2, h1]
    · simp only [if_neg h2]
      by_cases h3 : textHdr.isPrefixOf (pyStrip l)
      · simp [h3, h1]
      · simp only [if_neg h3]
        by_cases h4 : (pyStrip l).head? = some '-'
        · simp only [if_pos h4, if_neg h1]
          cases sec <;> simp
        · simp [h4, h1]

theorem foldl_blockStep_name (ls : List (List Char)) (st : BState) :
    (ls.foldl blockStep st).name = st.name ∨
    ∃ l ∈ ls, conceptHdr.isPrefixOf (pyStrip l) ∧
      (ls.foldl blockStep st).name = pyStrip ((pyStrip l).drop conceptHdr.length) := by
  induction ls generalizing st with
  | nil => exact Or.inl rfl
  | cons l ls ih =>
    rw [List.foldl_cons]
    rcases ih (blockStep st l) with h | ⟨l', hl', hp, he⟩
    · by_cases hc : conceptHdr.isPrefixOf (pyStrip l)
      · refine Or.inr ⟨l, List.mem_cons_self l ls, hc, ?_⟩
        rw [h, blockStep_name, if_pos hc]
      · refine Or.inl ?_
        rw [h, blockStep_name, if_neg hc]
    · exact Or.inr ⟨l', List.mem_cons_of_mem l hl', hp, he⟩

theorem processBlock_some {b k : List Char} {e : TermEntry}
    (h : processBlock b = some (k, e)) :
    k ≠ [] ∧ ∃ l ∈ linesOf (pyStrip b), conceptHdr.isPrefixOf (pyStrip l) ∧
      k = pyStrip ((pyStrip l).drop conceptHdr.length) := by
  simp only [processBlock] at h
  split at h
  · exact absurd h (by simp)
  · rename_i hne
    simp only [Option.some.injEq, Prod.mk.injEq] at h
    obtain ⟨hk, _⟩ := h
    subst hk
    refine ⟨hne, ?_⟩
    rcases foldl_blockStep_name (linesOf (pyStrip b)) ⟨[], [], [], Sec.noSec⟩ with
      h0 | ⟨l, hl, hp, he⟩
    · exact absurd h0 hne
    · exact ⟨l, hl, hp, he⟩

theorem assocSet_cons {β : Type} (a : List Char) (bv : β) (d : List (List Char × β))
    (k : List Char) (v : β) :
    assocSet ((a, bv) :: d) k v =
      if a = k then (k, v) :: d else (a, bv) :: assocSet d k v := rfl

theorem assocSet_keys {β : Type} {d : List (List Char × β)} {k k' : List Char} {v : β}
    (h : k ∈ (assocSet d k' v).map Prod.fst) :
    k = k' ∨ k ∈ d.map Prod.fst := by
  induction d with
  | nil =>
    simp only [assocSet, List.map_cons, List.map_nil, List.mem_singleton] at h
    exact Or.inl h
  | cons q d ih =>
    obtain ⟨a, bv⟩ := q
    rw [assocSet_cons] at h
    by_cases hq : a = k'
    · rw [if_pos hq] at h
      rcases List.mem_map.mp h with ⟨p, hp, he⟩
      rcases List.mem_cons.mp hp with h' | h'
      · subst h'
        exact Or.inl he.symm
      · exact Or.inr (List.mem_map.mpr ⟨p, List.mem_cons_of_mem _ h', he⟩)
    · rw [if_neg hq] at h
      rcases List.mem_map.mp h with ⟨p, hp, he⟩
      rcases List.mem_cons.mp hp with h' | h'
      · subst h'
        exact Or.inr (List.mem_map.mpr ⟨(a, bv), List.mem_cons_self _ _, he⟩)
      · rcases ih (List.mem_map.mpr ⟨p, h', he⟩) with h'' | h''
        · exact Or.inl h''
        · rcases List.mem_map.mp h'' with ⟨p', hp', he'⟩
          exact Or.inr (List.mem_map.mpr ⟨p', List.mem_cons_of_mem _ hp', he'⟩)

theorem keys_foldl_blocks (bs : List (List Char))
    (d : List (List Char × TermEntry)) {k : List Char}
    (hk : k ∈ ((bs.foldl
      (fun d b =>
        match processBlock b with
        | some (k, e) => assocSet d k e
        | none => d) d).map Prod.fst)) :
    k ∈ d.map Prod.fst ∨ ∃ b ∈ bs, ∃ e, processBlock b = some (k, e) := by
  induction bs generalizing d with
  | nil => exact Or.inl hk
  | cons b bs ih =>
    rw [List.foldl_cons] at hk
    cases hb : processBlock b with
    | none =>
      rw [hb] at hk
      rcases ih _ hk with h | ⟨b', hb', e, he⟩
      · exact Or.inl h
      · exact Or.inr ⟨b', List.mem_cons_of_mem b hb', e, he⟩
    | some p =>
      rw [hb] at hk
      rcases ih _ hk with h | ⟨b', hb', e, he⟩
      · rcases assocSet_keys h with h' | h'
        · refine Or.inr ⟨b, List.mem_cons_self b bs, p.2, ?_⟩
          rw [hb, h']
        · exact Or.inl h'
      · exact Or.inr ⟨b', List.mem_cons_of_mem b hb', e, he⟩

/-- C7.  Every key of the mapping returned by parse_search_terms_all is the
    trimmed text after `Concept:` of some line of the input whose stripped form
    begins with the literal header `Concept:`, and keys are never empty, so
    blocks with no recognized header contribute no key. -/
theorem claim_C7 (t k : List Char)
    (hk : k ∈ (parseSearchTermsCore t).map Prod.fst) :
    k ≠ [] ∧ ∃ l ∈ linesOf t, conceptHdr.isPrefixOf (pyStrip l) ∧
      k = pyStrip ((pyStrip l).drop conceptHdr.length) := by
  unfold parseSearchTermsCore at hk
  rcases keys_foldl_blocks (splitBlocks t) [] hk with h | ⟨b, hb, e, he⟩
  · simp at h
  · obtain ⟨hne, l', hl', hp, hke⟩ := processBlock_some he
    obtain ⟨l, hl, hstrip⟩ := mem_linesOf_pyStrip hl'
    refine ⟨hne, l, mem_linesOf_of_mem_splitBlocks hb hl, ?_, ?_⟩
    · rw [← hstrip]
      exact hp
    · rw [← hstrip]
      exact hke

theorem claim_C7_witness :
    "A".data ∈ (parseSearchTermsCore "Concept: A".data).map Prod.fst ∧
    ("A".data ≠ [] ∧ ∃ l ∈ linesOf "Concept: A".data,
      conceptHdr.isPrefixOf (pyStrip l) ∧
      "A".data = pyStrip ((pyStrip l).drop conceptHdr.length)) :=
  ⟨by decide, claim_C7 "Concept: A".data "A".data (by decide)⟩

/-! ## parse_search_terms_all: behaviour of a block with several Concept lines -/

/-- The trimmed concept names of the lines of a block that carry a
    `Concept:` header, in order. -/
def conceptNamesOf (ls : List (List Char)) : List (List Char) :=
  ls.filterMap (fun l =>
    if conceptHdr.isPrefixOf (pyStrip l) then
      some (pyStrip ((pyStrip l).drop conceptHdr.length))
    else none)

/-- The section/term part of the block loop on its own: identical to blockStep
    except that a `Concept:` line is a no-op.  Used to state that term
    collection runs straight through concept headers without resetting. -/
def termStep (st : Sec × List (List Char) × List (List Char)) (line : List Char) :
    Sec × List (List Char) × List (List Char) :=
  let l := pyStrip line
  if conceptHdr.isPrefixOf l then st
  else if meshHdr.isPrefixOf l then (Sec.meshSec, st.2.1, st.2.2)
  else if textHdr.isPrefixOf l then (Sec.textSec, st.2.1, st.2.2)
  else if l.head? = some '-' then
    match st.1 with
    | Sec.meshSec => (st.1, st.2.1 ++ [pyStrip (l.drop 1)], st.2.2)
    | Sec.textSec => (st.1, st.2.1, st.2.2 ++ [pyStrip (l.drop 1)])
    | Sec.noSec => st
  else st

/-- All MeSH and Text bullet terms of a list of lines, collected across the
    whole list regardless of intervening Concept headers. -/
def collectTerms (ls : List (List Char)) : List (List Char) × List (List Char) :=
  ((ls.foldl termStep (Sec.noSec, [], [])).2.1,
   (ls.foldl termStep (Sec.noSec, [], [])).2.2)

theorem blockStep_termStep (st : BState) (l : List Char) :
    ((blockStep st l).sec, (blockStep st l).mesh, (blockStep st l).text) =
      termStep (st.sec, st.mesh, st.text) l := by
  obtain ⟨n, m, tx, sec⟩ := st
  unfold blockStep termStep
  by_cases h1 : conceptHdr.isPrefixOf (pyStrip l)
  · simp [h1]
  · simp only [if_neg h1]
    by_cases h2 : meshHdr.isPrefixOf (pyStrip l)
    · simp [h2]
    · simp only [if_neg h2]
      by_cases h3 : textHdr.isPrefixOf (pyStrip l)
      · simp [h3]
      · simp only [if_neg h3]
        by_cases h4 : (pyStrip l).head? = some '-'
        · simp only [if_pos h4]
          cases sec <;> simp
        · simp [h4]

theorem foldl_blockStep_components (ls : List (List Char)) (st : BState) :
    (ls.foldl blockStep st).mesh =
      (ls.foldl termStep (st.sec, st.mesh, st.text)).2.1 ∧
    (ls.foldl blockStep st).text =
      (ls.foldl termStep (st.sec, st.mesh, st.text)).2.2 ∧
    (ls.foldl blockStep st).sec =
      (ls.foldl termStep (st.sec, st.mesh, st.text)).1 := by
  induction ls generalizing st with
  | nil => exact ⟨rfl, rfl, rfl⟩
  | cons l ls ih =>
    rw [List.foldl_cons, List.foldl_cons, ← blockStep_termStep]
    exact ih (blockStep st l)

theorem foldl_blockStep_name_last (ls : List (List Char)) (st : BState) :
    (ls.foldl blockStep st).name = (conceptNamesOf ls).getLastD st.name := by
  induction ls generalizing st with
  | nil => rfl
  | cons l ls ih =>
    rw [List.foldl_cons, ih (blockStep st l)]
    unfold conceptNamesOf
    rw [List.filterMap_cons]
    by_cases hc : conceptHdr.isPrefixOf (pyStrip l)
    · rw [if_pos hc, List.getLastD_cons]
      have : (blockStep st l).name = pyStrip ((pyStrip l).drop conceptHdr.length) := by
        rw [blockStep_name, if_pos hc]
      rw [this]
    · rw [if_neg hc]
      have : (blockStep st l).name = st.name := by
        rw [blockStep_name, if_neg hc]
      rw [this]

/-- C10.  When the line list of a block carries two or more `Concept:` header
    lines (as happens when a later header is indented, so the block split does
    not cut before it), the block is recorded under the LAST concept name
    alone: the result pair carries that name with ALL bullet terms collected
    anywhere in the block (collectTerms runs straight through concept headers),
    and the earlier names appear in no key.  The second conjunct shows the full
    function on such an input: the only key is B, with the MeSH term collected
    under A and the Text term collected under B. -/
theorem claim_C10 :
    (∀ b : List Char,
      2 ≤ (conceptNamesOf (linesOf (pyStrip b))).length →
      (conceptNamesOf (linesOf (pyStrip b))).getLastD [] ≠ [] →
      processBlock b =
        some ((conceptNamesOf (linesOf (pyStrip b))).getLastD [],
          ⟨(collectTerms (linesOf (pyStrip b))).1,
           (collectTerms (linesOf (pyStrip b))).2⟩)) ∧
    parse_search_terms_all "Concept: A\nMeSH Terms:\n- t1\n  Concept: B\nText Terms:\n- t2" =
      [("B".data, ⟨["t1".data], ["t2".data]⟩)] := by
  constructor
  · intro b _ hne
    have hname := foldl_blockStep_name_last (linesOf (pyStrip b)) ⟨[], [], [], Sec.noSec⟩
    have hcomp := foldl_blockStep_components (linesOf (pyStrip b)) ⟨[], [], [], Sec.noSec⟩
    simp only [processBlock]
    rw [if_neg (by rw [hname]; exact hne), hname, hcomp.1, hcomp.2.1]
    rfl
  · decide

theorem claim_C10_witness :
    (2 ≤ (conceptNamesOf (linesOf (pyStrip
        "Concept: A\nMeSH Terms:\n- t1\n  Concept: B\nText Terms:\n- t2".data))).length ∧
      (conceptNamesOf (linesOf (pyStrip
        "Concept: A\nMeSH Terms:\n- t1\n  Concept: B\nText Terms:\n- t2".data))).getLastD [] ≠ []) ∧
    processBlock "Concept: A\nMeSH Terms:\n- t1\n  Concept: B\nText Terms:\n- t2".data =
      some ((conceptNamesOf (linesOf (pyStrip
        "Concept: A\nMeSH Terms:\n- t1\n  Concept: B\nText Terms:\n- t2".data))).getLastD [],
        ⟨(collectTerms (linesOf (pyStrip
          "Concept: A\nMeSH Terms:\n- t1\n  Concept: B\nText Terms:\n- t2".data))).1,
         (collectTerms (linesOf (pyStrip
          "Concept: A\nMeSH Terms:\n- t1\n  Concept: B\nText Terms:\n- t2".data))).2⟩) :=
  ⟨⟨by decide, by decide⟩,
    claim_C10.1 "Concept: A\nMeSH Terms:\n- t1\n  Concept: B\nText Terms:\n- t2".data
      (by decide) (by decide)⟩

/-! ## Header recognition in parse_search_terms_all (exact, case-sensitive) -/

theorem linesOf_noNL {x : List Char} (h : '\n' ∉ x) : linesOf x = [x] := by
  induction x with
  | nil => rfl
  | cons c rest ih =>
    have hc : ¬c = '\n' := fun e => h (e ▸ List.mem_cons_self c rest)
    rw [linesOf_cons_ne _ hc, ih (fun hm => h (List.mem_cons_of_mem c hm))]
    simp

theorem isPrefixOf_self_append (l x : List Char) : l.isPrefixOf (l ++ x) = true := by
  induction l with
  | nil => simp [List.isPrefixOf]
  | cons c cs ih => simp [List.isPrefixOf, ih]

theorem splitBlocks_three (L1 L2 L3 : List Char)
    (hn1 : '\n' ∉ L1) (hn2 : '\n' ∉ L2) (hn3 : '\n' ∉ L3)
    (hc2 : conceptHdr.isPrefixOf (L2 ++ '\n' :: L3) = false)
    (hc3 : conceptHdr.isPrefixOf L3 = false) :
    splitBlocks (L1 ++ '\n' :: (L2 ++ '\n' :: L3)) =
      [L1 ++ '\n' :: (L2 ++ '\n' :: L3)] := by
  rw [splitBlocks_append_noNL _ hn1,
    splitBlocks_cons_ne (by simp [hc2]),
    splitBlocks_append_noNL _ hn2,
    splitBlocks_cons_ne (by simp [hc3]),
    splitBlocks_noNL hn3]
  simp

theorem pyStrip_concept_line (nm : List Char) (hnm1 : nm ≠ [])
    (hnml : ∀ c, nm.getLast? = some c → pyIsSpace c = false) :
    pyStrip ("Concept: ".data ++ nm) = "Concept: ".data ++ nm := by
  apply pyStrip_eq_self
  · intro c hc
    have h0 : ("Concept: ".data ++ nm).head? = some 'C' := rfl
    rw [h0] at hc
    obtain rfl := Option.some.inj hc
    decide
  · intro c hc
    rw [List.getLast?_append_of_ne_nil _ hnm1] at hc
    exact hnml c hc

theorem pyStrip_concept_line_lower (nm : List Char) (hnm1 : nm ≠ [])
    (hnml : ∀ c, nm.getLast? = some c → pyIsSpace c = false) :
    pyStrip ("concept: ".data ++ nm) = "concept: ".data ++ nm := by
  apply pyStrip_eq_self
  · intro c hc
    have h0 : ("concept: ".data ++ nm).head? = some 'c' := rfl
    rw [h0] at hc
    obtain rfl := Option.some.inj hc
    decide
  · intro c hc
    rw [List.getLast?_append_of_ne_nil _ hnm1] at hc
    exact hnml c hc

theorem pyStrip_dash_line (tm : List Char) (htm1 : tm ≠ [])
    (html : ∀ c, tm.getLast? = some c → pyIsSpace c = false) :
    pyStrip ("- ".data ++ tm) = "- ".data ++ tm := by
  apply pyStrip_eq_self
  · intro c hc
    have h0 : ("- ".data ++ tm).head? = some '-' := rfl
    rw [h0] at hc
    obtain rfl := Option.some.inj hc
    decide
  · intro c hc
    rw [List.getLast?_append_of_ne_nil _ htm1] at hc
    exact html c hc

theorem blockStep_concept_line (st : BState) (nm : List Char) (hnm1 : nm ≠ [])
    (hnmh : ∀ c, nm.head? = some c → pyIsSpace c = false)
    (hnml : ∀ c, nm.getLast? = some c → pyIsSpace c = false) :
    blockStep st ("Concept: ".data ++ nm) = { st with name := nm } := by
  simp only [blockStep, pyStrip_concept_line nm hnm1 hnml]
  rw [if_pos]
  · have hdrop : ("Concept: ".data ++ nm).drop conceptHdr.length = ' ' :: nm := by
      simp [List.drop, conceptHdr]
    rw [hdrop, pyStrip_sp_cons _ (by decide), pyStrip_eq_self hnmh hnml]
  · exact isPrefixOf_self_append conceptHdr (' ' :: nm)

theorem blockStep_concept_line_lower (st : BState) (nm : List Char) (hnm1 : nm ≠ [])
    (hnml : ∀ c, nm.getLast? = some c → pyIsSpace c = false) :
    blockStep st ("concept: ".data ++ nm) = st := by
  simp only [blockStep, pyStrip_concept_line_lower nm hnm1 hnml]
  rw [if_neg (by simp [conceptHdr, List.isPrefixOf]),
    if_neg (by simp [meshHdr, List.isPrefixOf]),
    if_neg (by simp [textHdr, List.isPrefixOf]),
    if_neg (by simp)]

theorem blockStep_mesh_line (st : BState) :
    blockStep st "MeSH Terms:".data = { st with sec := Sec.meshSec } := rfl

theorem blockStep_mesh_space_line (st : BState) :
    blockStep st "MeSH Terms :".data = st := rfl

theorem blockStep_dash_line (st : BState) (tm : List Char) (htm1 : tm ≠ [])
    (htmh : ∀ c, tm.head? = some c → pyIsSpace c = false)
    (html : ∀ c, tm.getLast? = some c → pyIsSpace c = false) :
    blockStep st ("- ".data ++ tm) =
      (match st.sec with
       | Sec.meshSec => { st with mesh := st.mesh ++ [tm] }
       | Sec.textSec => { st with text := st.text ++ [tm] }
       | Sec.noSec => st) := by
  simp only [blockStep, pyStrip_dash_line tm htm1 html]
  rw [if_neg (by simp [conceptHdr, List.isPrefixOf]),
    if_neg (by simp [meshHdr, List.isPrefixOf]),
    if_neg (by simp [textHdr, List.isPrefixOf]),
    if_pos (by rfl)]
  have hdrop : ("- ".data ++ tm).drop 1 = ' ' :: tm := rfl
  rw [hdrop, pyStrip_sp_cons _ (by decide), pyStrip_eq_self htmh html]

/-- C5 (counterexample).  The claim says header recognition is case-insensitive
    and tolerates whitespace before the colon, so 'concept:' or 'MESH TERMS :'
    should parse like the canonical casing.  The source uses case-sensitive
    str.startswith with no whitespace tolerance: the variant input parses to
    nothing while the canonical one produces a block. -/
theorem claim_C5_counterexample :
    parse_search_terms_all "concept: X\nMESH TERMS :\n- a" = [] ∧
    parse_search_terms_all "Concept: X\nMeSH Terms:\n- a" =
      [("X".data, ⟨["a".data], []⟩)] := by
  decide

/-- C5 (amended).  Header recognition in parse_search_terms_all is
    case-sensitive and exact: a stripped line recognizes only the literal
    prefixes `Concept:`, `MeSH Terms:` and `Text Terms:`, with no whitespace
    allowed before the colon, and the text splits into blocks only before lines
    that start with the exact `Concept:`.  Concretely, for any trimmed,
    newline-free, non-empty name and term: the canonical three-line block
    parses to the one entry; writing `concept:` in lower case makes the block
    contribute nothing; writing `MeSH Terms :` (space before the colon) leaves
    the section switch unrecognized, so the bullet term is dropped. -/
theorem claim_C5 (nm tm : List Char)
    (hnm1 : nm ≠ []) (hnm2 : '\n' ∉ nm)
    (hnmh : ∀ c, nm.head? = some c → pyIsSpace c = false)
    (hnml : ∀ c, nm.getLast? = some c → pyIsSpace c = false)
    (htm1 : tm ≠ []) (htm2 : '\n' ∉ tm)
    (htmh : ∀ c, tm.head? = some c → pyIsSpace c = false)
    (html : ∀ c, tm.getLast? = some c → pyIsSpace c = false) :
    parseSearchTermsCore
        (("Concept: ".data ++ nm) ++ '\n' :: ("MeSH Terms:".data ++ '\n' :: ("- ".data ++ tm)))
      = [(nm, ⟨[tm], []⟩)] ∧
    parseSearchTermsCore
        (("concept: ".data ++ nm) ++ '\n' :: ("MeSH Terms:".data ++ '\n' :: ("- ".data ++ tm)))
      = [] ∧
    parseSearchTermsCore
        (("Concept: ".data ++ nm) ++ '\n' :: ("MeSH Terms :".data ++ '\n' :: ("- ".data ++ tm)))
      = [(nm, ⟨[], []⟩)] := by
  have hdash : '\n' ∉ "- ".data ++ tm := by
    intro hm
    rcases List.mem_append.mp hm with h | h
    · simp at h
    · exact htm2 h
  have hcdash : conceptHdr.isPrefixOf ("- ".data ++ tm) = false := by
    simp [conceptHdr, List.isPrefixOf]
  refine ⟨?_, ?_, ?_⟩
  · have hsb := splitBlocks_three ("Concept: ".data ++ nm) "MeSH Terms:".data
      ("- ".data ++ tm)
      (by
        intro hm
        rcases List.mem_append.mp hm with h | h
        · simp at h
        · exact hnm2 h)
      (by decide) hdash (by simp [conceptHdr, List.isPrefixOf]) hcdash
    unfold parseSearchTermsCore
    rw [hsb, List.foldl_cons, List.foldl_nil]
    have hpb : processBlock
        (("Concept: ".data ++ nm) ++ '\n' :: ("MeSH Terms:".data ++ '\n' :: ("- ".data ++ tm)))
        = some (nm, ⟨[tm], []⟩) := by
      have hstrip : pyStrip
          (("Concept: ".data ++ nm) ++ '\n' :: ("MeSH Terms:".data ++ '\n' :: ("- ".data ++ tm)))
          = ("Concept: ".data ++ nm) ++ '\n' :: ("MeSH Terms:".data ++ '\n' :: ("- ".data ++ tm)) := by
        apply pyStrip_eq_self
        · intro c hc
          have h0 : (("Concept: ".data ++ nm) ++ '\n' ::
              ("MeSH Terms:".data ++ '\n' :: ("- ".data ++ tm))).head? = some 'C' := rfl
          rw [h0] at hc
          obtain rfl := Option.some.inj hc
          decide
        · intro c hc
          rw [List.getLast?_append_of_ne_nil _ (by simp),
            getLast?_cons_of_ne_nil (by simp),
            List.getLast?_append_of_ne_nil _ (by simp),
            getLast?_cons_of_ne_nil (by simp [htm1]),
            List.getLast?_append_of_ne_nil _ htm1] at hc
          exact html c hc
      simp only [processBlock, hstrip]
      rw [linesOf_append_newline, linesOf_append_newline,
        linesOf_noNL (show '\n' ∉ "Concept: ".data ++ nm by
          intro hm
          rcases List.mem_append.mp hm with h | h
          · simp at h
          · exact hnm2 h),
        linesOf_noNL (show ('\n' : Char) ∉ "MeSH Terms:".data by decide),
        linesOf_noNL hdash]
      simp only [List.singleton_append]
      rw [List.foldl_cons, List.foldl_cons, List.foldl_cons, List.foldl_nil]
      rw [blockStep_concept_line _ nm hnm1 hnmh hnml, blockStep_mesh_line,
        blockStep_dash_line _ tm htm1 htmh html]
      simp [hnm1]
    rw [hpb]
    rfl
  · have hsb := splitBlocks_three ("concept: ".data ++ nm) "MeSH Terms:".data
      ("- ".data ++ tm)
      (by
        intro hm
        rcases List.mem_append.mp hm with h | h
        · simp at h
        · exact hnm2 h)
      (by decide) hdash (by simp [conceptHdr, List.isPrefixOf]) hcdash
    unfold parseSearchTermsCore
    rw [hsb, List.foldl_cons, List.foldl_nil]
    have hpb : processBlock
        (("concept: ".data ++ nm) ++ '\n' :: ("MeSH Terms:".data ++ '\n' :: ("- ".data ++ tm)))
        = none := by
      have hstrip : pyStrip
          (("concept: ".data ++ nm) ++ '\n' :: ("MeSH Terms:".data ++ '\n' :: ("- ".data ++ tm)))
          = ("concept: ".data ++ nm) ++ '\n' :: ("MeSH Terms:".data ++ '\n' :: ("- ".data ++ tm)) := by
        apply pyStrip_eq_self
        · intro c hc
          have h0 : (("concept: ".data ++ nm) ++ '\n' ::
              ("MeSH Terms:".data ++ '\n' :: ("- ".data ++ tm))).head? = some 'c' := rfl
          rw [h0] at hc
          obtain rfl := Option.some.inj hc
          decide
        · intro c hc
          rw [List.getLast?_append_of_ne_nil _ (by simp),
            getLast?_cons_of_ne_nil (by simp),
            List.getLast?_append_of_ne_nil _ (by simp),
            getLast?_cons_of_ne_nil (by simp [htm1]),
            List.getLast?_append_of_ne_nil _ htm1] at hc
          exact html c hc
      simp only [processBlock, hstrip]
      rw [linesOf_append_newline, linesOf_append_newline,
        linesOf_noNL (show '\n' ∉ "concept: ".data ++ nm by
          intro hm
          rcases List.mem_append.mp hm with h | h
          · simp at h
          · exact hnm2 h),
        linesOf_noNL (show ('\n' : Char) ∉ "MeSH Terms:".data by decide),
        linesOf_noNL hdash]
      simp only [List.singleton_append]
      rw [List.foldl_cons, List.foldl_cons, List.foldl_cons, List.foldl_nil]
      rw [blockStep_concept_line_lower _ nm hnm1 hnml, blockStep_mesh_line,
        blockStep_dash_line _ tm htm1 htmh html]
      simp
    rw [hpb]
  · have hsb := splitBlocks_three ("Concept: ".data ++ nm) "MeSH Terms :".data
      ("- ".data ++ tm)
      (by
        intro hm
        rcases List.mem_append.mp hm with h | h
        · simp at h
        · exact hnm2 h)
      (by decide) hdash (by simp [conceptHdr, List.isPrefixOf]) hcdash
    unfold parseSearchTermsCore
    rw [hsb, List.foldl_cons, List.foldl_nil]
    have hpb : processBlock
        (("Concept: ".data ++ nm) ++ '\n' :: ("MeSH Terms :".data ++ '\n' :: ("- ".data ++ tm)))
        = some (nm, ⟨[], []⟩) := by
      have hstrip : pyStrip
          (("Concept: ".data ++ nm) ++ '\n' :: ("MeSH Terms :".data ++ '\n' :: ("- ".data ++ tm)))
          = ("Concept: ".data ++ nm) ++ '\n' :: ("MeSH Terms :".data ++ '\n' :: ("- ".data ++ tm)) := by
        apply pyStrip_eq_self
        · intro c hc
          have h0 : (("Concept: ".data ++ nm) ++ '\n' ::
              ("MeSH Terms :".data ++ '\n' :: ("- ".data ++ tm))).head? = some 'C' := rfl
          rw [h0] at hc
          obtain rfl := Option.some.inj hc
          decide
        · intro c hc
          rw [List.getLast?_append_of_ne_nil _ (by simp),
            getLast?_cons_of_ne_nil (by simp),
            List.getLast?_append_of_ne_nil _ (by simp),
            getLast?_cons_of_ne_nil (by simp [htm1]),
            List.getLast?_append_of_ne_nil _ htm1] at hc
          exact html c hc
      simp only [processBlock, hstrip]
      rw [linesOf_append_newline, linesOf_append_newline,
        linesOf_noNL (show '\n' ∉ "Concept: ".data ++ nm by
          intro hm
          rcases List.mem_append.mp hm with h | h
          · simp at h
          · exact hnm2 h),
        linesOf_noNL (show ('\n' : Char) ∉ "MeSH Terms :".data by decide),
        linesOf_noNL hdash]
      simp only [List.singleton_append]
      rw [List.foldl_cons, List.foldl_cons, List.foldl_cons, List.foldl_nil]
      rw [blockStep_concept_line _ nm hnm1 hnmh hnml, blockStep_mesh_space_line,
        blockStep_dash_line _ tm htm1 htmh html]
      simp [hnm1]
    rw [hpb]
    rfl

theorem claim_C5_witness :
    ("X".data ≠ [] ∧ ('\n' : Char) ∉ "X".data ∧ "a".data ≠ [] ∧ ('\n' : Char) ∉ "a".data) ∧
    parseSearchTermsCore
        (("Concept: ".data ++ "X".data) ++ '\n' ::
          ("MeSH Terms:".data ++ '\n' :: ("- ".data ++ "a".data)))
      = [("X".data, ⟨["a".data], []⟩)] :=
  ⟨⟨by decide, by decide, by decide, by decide⟩,
    (claim_C5 "X".data "a".data (by decide) (by decide) (by decide) (by decide)
      (by decide) (by decide) (by decide) (by decide)).1⟩

/-! ## parse_pico on well-formed four-label texts (claim C3) -/

/-- One line of the shape `<bullets><emph>Label<emph>: value`. -/
def wrapLine (b e lbl v : List Char) : List Char :=
  b ++ e ++ lbl ++ e ++ ':' :: ' ' :: v

/-- A character the bullet-stripping regex `^[-*\s]*` removes (restricted to
    the ones a bullet prefix is made of). -/
def bulletChar (c : Char) : Prop := c = '-' ∨ c = '*' ∨ c = ' '

theorem removeEmph_cons_safe {c : Char} (x : List Char) (h : ¬c = '*' ∧ ¬c = '_') :
    removeEmph (c :: x) = c :: removeEmph x := by
  cases x with
  | nil => rfl
  | cons d rest =>
    rw [removeEmph, if_neg]
    rintro (⟨h1, _⟩ | ⟨h1, _⟩)
    · exact h.1 h1
    · exact h.2 h1

theorem head?_append_of_ne_nil {l₁ : List Char} (l₂ : List Char) (h : l₁ ≠ []) :
    (l₁ ++ l₂).head? = l₁.head? := by
  cases l₁ with
  | nil => exact absurd rfl h
  | cons c rest => rfl

theorem dropWhile_all {p : Char → Bool} {w : List Char} (x : List Char)
    (h : ∀ c ∈ w, p c) : List.dropWhile p (w ++ x) = List.dropWhile p x := by
  induction w with
  | nil => rfl
  | cons c rest ih =>
    rw [List.cons_append, List.dropWhile_cons, if_pos (h c (List.mem_cons_self c rest))]
    exact ih fun a ha => h a (List.mem_cons_of_mem c ha)

theorem getLast?_line (B lbl v : List Char) (hvne : v ≠ []) :
    (B ++ (lbl ++ ':' :: ' ' :: v)).getLast? = v.getLast? := by
  rw [List.getLast?_append_of_ne_nil _ (by simp),
    List.getLast?_append_of_ne_nil _ (by simp),
    getLast?_cons_of_ne_nil (by simp),
    getLast?_cons_of_ne_nil hvne]

theorem removeEmph_emph_colon (e v : List Char)
    (he : e = [] ∨ e = "**".data ∨ e = "__".data) (hv : removeEmph v = v) :
    removeEmph (e ++ ':' :: ' ' :: v) = ':' :: ' ' :: v := by
  have hcv : removeEmph (':' :: ' ' :: v) = ':' :: ' ' :: v := by
    rw [removeEmph_cons_safe _ (by decide), removeEmph_cons_safe _ (by decide), hv]
  rcases he with he | he | he <;> subst he
  · exact hcv
  · rw [show "**".data ++ ':' :: ' ' :: v = '*' :: '*' :: (':' :: ' ' :: v) from rfl,
      removeEmph, if_pos (by decide)]
    exact hcv
  · rw [show "__".data ++ ':' :: ' ' :: v = '_' :: '_' :: (':' :: ' ' :: v) from rfl,
      removeEmph, if_pos (by decide)]
    exact hcv

theorem mem_of_getLast?_eq {l : List Char} {a : Char} (h : l.getLast? = some a) :
    a ∈ l := by
  cases l with
  | nil => exact Option.noConfusion h
  | cons c rest =>
    rw [List.getLast?_eq_getLast _ (by simp)] at h
    obtain rfl := Option.some.inj h.symm
    exact List.getLast_mem _

theorem removeEmph_wrapLine (b e lbl v : List Char)
    (hb : ∀ c ∈ b, bulletChar c)
    (he : e = [] ∨ e = "**".data ∨ e = "__".data)
    (hlh : ∀ c, lbl.head? = some c → ¬c = '*' ∧ ¬c = '_')
    (hll : ∀ c, lbl.getLast? = some c → ¬c = '*' ∧ ¬c = '_')
    (hlne : lbl ≠ [])
    (hlfix : removeEmph lbl = lbl)
    (hv : removeEmph v = v) :
    ∃ B, removeEmph (wrapLine b e lbl v) = B ++ (lbl ++ ':' :: ' ' :: v) ∧
      ∀ c ∈ B, bulletChar c := by
  have hsplit1 : wrapLine b e lbl v = (b ++ e) ++ (lbl ++ (e ++ ':' :: ' ' :: v)) := by
    unfold wrapLine
    simp [List.append_assoc]
  have hhead : ∀ c, (lbl ++ (e ++ ':' :: ' ' :: v)).head? = some c → ¬c = '*' ∧ ¬c = '_' := by
    intro c hc
    rw [head?_append_of_ne_nil _ hlne] at hc
    exact hlh c hc
  have hstep1 : removeEmph ((b ++ e) ++ (lbl ++ (e ++ ':' :: ' ' :: v))) =
      removeEmph (b ++ e) ++ removeEmph (lbl ++ (e ++ ':' :: ' ' :: v)) := by
    apply removeEmph_append_safe
    · rintro ⟨_, hh⟩
      cases hhd : (lbl ++ (e ++ ':' :: ' ' :: v)).head? with
      | none => rw [hhd] at hh; exact Option.noConfusion hh
      | some c =>
        rw [hhd] at hh
        obtain rfl := Option.some.inj hh.symm
        exact (hhead _ hhd).1 rfl
    · rintro ⟨_, hh⟩
      cases hhd : (lbl ++ (e ++ ':' :: ' ' :: v)).head? with
      | none => rw [hhd] at hh; exact Option.noConfusion hh
      | some c =>
        rw [hhd] at hh
        obtain rfl := Option.some.inj hh.symm
        exact (hhead _ hhd).2 rfl
  have hstep2 : removeEmph (lbl ++ (e ++ ':' :: ' ' :: v)) =
      lbl ++ removeEmph (e ++ ':' :: ' ' :: v) := by
    rw [removeEmph_append_safe, hlfix]
    · rintro ⟨hl, _⟩
      cases hld : lbl.getLast? with
      | none => rw [hld] at hl; exact Option.noConfusion hl
      | some c =>
        rw [hld] at hl
        obtain rfl := Option.some.inj hl.symm
        exact (hll _ hld).1 rfl
    · rintro ⟨hl, _⟩
      cases hld : lbl.getLast? with
      | none => rw [hld] at hl; exact Option.noConfusion hl
      | some c =>
        rw [hld] at hl
        obtain rfl := Option.some.inj hl.symm
        exact (hll _ hld).2 rfl
  refine ⟨removeEmph (b ++ e), ?_, ?_⟩
  · rw [hsplit1, hstep1, hstep2, removeEmph_emph_colon e v he hv]
  · intro c hc
    rcases he with he | he | he <;> subst he
    · have hmem := mem_removeEmph hc
      rw [List.append_nil] at hmem
      exact hb c hmem
    · have hmem := mem_removeEmph hc
      rcases List.mem_append.mp hmem with h | h
      · exact hb c h
      · have hcs : c = '*' := by simpa using h
        exact Or.inr (Or.inl hcs)
    · have hB : removeEmph (b ++ "__".data) = removeEmph b := by
        have h2 : removeEmph (b ++ "__".data) =
            removeEmph b ++ removeEmph "__".data := by
          apply removeEmph_append_safe
          · rintro ⟨_, hh⟩
            exact absurd (Option.some.inj hh) (by decide)
          · rintro ⟨hl, _⟩
            cases hld : b.getLast? with
            | none => rw [hld] at hl; exact Option.noConfusion hl
            | some d =>
              rw [hld] at hl
              obtain rfl := Option.some.inj hl
              rcases hb _ (mem_of_getLast?_eq hld) with h' | h' | h' <;> simp at h'
        rw [h2, show removeEmph "__".data = [] from by decide, List.append_nil]
      rw [hB] at hc
      exact hb c (mem_removeEmph hc)

theorem dLW_bulletish (B X : List Char) (hB : ∀ c ∈ B, bulletChar c)
    (hXh : ∀ c, X.head? = some c → pyIsSpace c = false) :
    ∃ B', List.dropWhile pyIsSpace (B ++ X) = B' ++ X ∧ ∀ c ∈ B', bulletChar c := by
  rw [List.dropWhile_append]
  by_cases hemp : (List.dropWhile pyIsSpace B).isEmpty
  · rw [if_pos hemp, dropWhile_sp_eq_self hXh]
    exact ⟨[], rfl, by simp⟩
  · rw [if_neg hemp]
    refine ⟨List.dropWhile pyIsSpace B, rfl, ?_⟩
    intro c hc
    exact hB c (List.dropWhile_sublist pyIsSpace |>.mem hc)

theorem stripBullets_line (B lbl v : List Char)
    (hB : ∀ c ∈ B, bulletChar c)
    (hlh : ∀ c, lbl.head? = some c →
      ((c = '-' || c = '*' || pyIsSpace c) = false))
    (hlne : lbl ≠ []) (hvne : v ≠ [])
    (hvl : ∀ c, v.getLast? = some c → pyIsSpace c = false) :
    stripBullets (pyStrip (B ++ (lbl ++ ':' :: ' ' :: v))) = lbl ++ ':' :: ' ' :: v := by
  have hXh : ∀ c, (lbl ++ ':' :: ' ' :: v).head? = some c → pyIsSpace c = false := by
    intro c hc
    rw [head?_append_of_ne_nil _ hlne] at hc
    have := hlh c hc
    revert this
    simp only [Bool.or_eq_false_iff]
    rintro ⟨⟨_, _⟩, h⟩
    exact h
  obtain ⟨B', hB'eq, hB'⟩ := dLW_bulletish B (lbl ++ ':' :: ' ' :: v) hB hXh
  have hstrip : pyStrip (B ++ (lbl ++ ':' :: ' ' :: v)) = B' ++ (lbl ++ ':' :: ' ' :: v) := by
    unfold pyStrip
    rw [hB'eq, dropTrailWS_eq_self]
    intro c hc
    rw [getLast?_line B' lbl v hvne] at hc
    exact hvl c hc
  rw [hstrip]
  unfold stripBullets
  rw [dropWhile_all _ (by
    intro c hc
    rcases hB' c hc with h | h | h <;> simp [h, pyIsSpace])]
  rw [show List.dropWhile (fun c => c = '-' || c = '*' || pyIsSpace c)
        (lbl ++ ':' :: ' ' :: v) =
      lbl ++ ':' :: ' ' :: v from ?_]
  cases hl : lbl with
  | nil => exact absurd hl hlne
  | cons c rest =>
    rw [List.cons_append, List.dropWhile_cons, if_neg]
    have := hlh c (by rw [hl]; rfl)
    simp [this]

theorem tryLabel_ne_first {lbl l : List Char} {c d : Char}
    (hc : l.head? = some c) (hd : lbl.head? = some d)
    (hne : ¬c.toLower = d.toLower) : tryLabel lbl l = none := by
  unfold tryLabel
  rw [if_neg]
  intro h
  have hcongr := congrArg List.head? h
  cases hlbl : lbl with
  | nil => rw [hlbl] at hd; exact Option.noConfusion hd
  | cons d' rest =>
    rw [hlbl] at hd
    obtain rfl := Option.some.inj hd
    cases hl : l with
    | nil => rw [hl] at hc; exact Option.noConfusion hc
    | cons c' rest' =>
      rw [hl] at hc
      obtain rfl := Option.some.inj hc
      rw [hlbl, hl] at hcongr
      simp only [List.length_cons, List.take_succ_cons, List.take_cons, List.map_cons,
        List.head?_cons, Option.some.injEq] at hcongr
      exact hne hcongr

theorem tryLabel_exact (lbl v : List Char)
    (hvh : ∀ c, v.head? = some c → pyIsSpace c = false)
    (hvl : ∀ c, v.getLast? = some c → pyIsSpace c = false) :
    tryLabel lbl (lbl ++ ':' :: ' ' :: v) = some (pyCapitalize lbl, v) := by
  unfold tryLabel
  rw [List.take_left lbl, List.drop_left lbl, if_pos rfl, List.dropWhile_cons,
    if_neg (by decide)]
  show some (pyCapitalize lbl, pyStrip (' ' :: v)) = some (pyCapitalize lbl, v)
  rw [pyStrip_sp_cons _ (by decide), pyStrip_eq_self hvh hvl]

theorem matchPico_pop (v : List Char)
    (hvh : ∀ c, v.head? = some c → pyIsSpace c = false)
    (hvl : ∀ c, v.getLast? = some c → pyIsSpace c = false) :
    matchPicoLine (popLabel ++ ':' :: ' ' :: v) = some (popLabel, v) := by
  unfold matchPicoLine
  rw [tryLabel_exact popLabel v hvh hvl,
    show pyCapitalize popLabel = popLabel from by decide]
  rfl

theorem matchPico_int (v : List Char)
    (hvh : ∀ c, v.head? = some c → pyIsSpace c = false)
    (hvl : ∀ c, v.getLast? = some c → pyIsSpace c = false) :
    matchPicoLine (intLabel ++ ':' :: ' ' :: v) = some (intLabel, v) := by
  unfold matchPicoLine
  rw [@tryLabel_ne_first popLabel (intLabel ++ ':' :: ' ' :: v) 'I' 'P' rfl rfl (by decide),
    tryLabel_exact intLabel v hvh hvl,
    show pyCapitalize intLabel = intLabel from by decide]
  rfl

theorem matchPico_comp (v : List Char)
    (hvh : ∀ c, v.head? = some c → pyIsSpace c = false)
    (hvl : ∀ c, v.getLast? = some c → pyIsSpace c = false) :
    matchPicoLine (compLabel ++ ':' :: ' ' :: v) = some (compLabel, v) := by
  unfold matchPicoLine
  rw [@tryLabel_ne_first popLabel (compLabel ++ ':' :: ' ' :: v) 'C' 'P' rfl rfl (by decide),
    @tryLabel_ne_first intLabel (compLabel ++ ':' :: ' ' :: v) 'C' 'I' rfl rfl (by decide),
    tryLabel_exact compLabel v hvh hvl,
    show pyCapitalize compLabel = compLabel from by decide]
  rfl

theorem matchPico_out (v : List Char)
    (hvh : ∀ c, v.head? = some c → pyIsSpace c = false)
    (hvl : ∀ c, v.getLast? = some c → pyIsSpace c = false) :
    matchPicoLine (outLabel ++ ':' :: ' ' :: v) = some (outLabel, v) := by
  unfold matchPicoLine
  rw [@tryLabel_ne_first popLabel (outLabel ++ ':' :: ' ' :: v) 'O' 'P' rfl rfl (by decide),
    @tryLabel_ne_first intLabel (outLabel ++ ':' :: ' ' :: v) 'O' 'I' rfl rfl (by decide),
    @tryLabel_ne_first compLabel (outLabel ++ ':' :: ' ' :: v) 'O' 'C' rfl rfl (by decide),
    tryLabel_exact outLabel v hvh hvl,
    show pyCapitalize outLabel = outLabel from by decide]
  rfl

theorem noNL_line (B lbl v : List Char) (hB : ∀ c ∈ B, bulletChar c)
    (hlbl : ('\n' : Char) ∉ lbl) (hv : ('\n' : Char) ∉ v) :
    ('\n' : Char) ∉ B ++ (lbl ++ ':' :: ' ' :: v) := by
  intro hm
  rcases List.mem_append.mp hm with h | h
  · rcases hB _ h with h' | h' | h' <;> simp at h'
  · rcases List.mem_append.mp h with h | h
    · exact hlbl h
    · rcases List.mem_cons.mp h with h | h
      · simp at h
      · rcases List.mem_cons.mp h with h | h
        · simp at h
        · exact hv h

/-- C3.  On a well-formed four-label text in which each PICO label appears
    exactly once as `Label: value` on its own line, parse_pico returns exactly
    the four values; the result is unchanged by any leading bullet prefix of
    dashes, asterisks and spaces before each label and by wrapping each label
    in ** or __ markdown emphasis.  Values are assumed trimmed, newline-free,
    non-empty and free of emphasis markers (otherwise they could not appear
    literally as the parsed value).  The second conjunct is the claim's
    concrete example. -/
theorem claim_C3 (v1 v2 v3 v4 b1 b2 b3 b4 e1 e2 e3 e4 : List Char)
    (hv : ∀ v ∈ [v1, v2, v3, v4], v ≠ [] ∧ ('\n' : Char) ∉ v ∧ removeEmph v = v ∧
      (∀ c, v.head? = some c → pyIsSpace c = false) ∧
      (∀ c, v.getLast? = some c → pyIsSpace c = false))
    (hb : ∀ b ∈ [b1, b2, b3, b4], ∀ c ∈ b, bulletChar c)
    (he : ∀ e ∈ [e1, e2, e3, e4], e = [] ∨ e = "**".data ∨ e = "__".data) :
    parsePicoCore
        (wrapLine b1 e1 popLabel v1 ++ '\n' ::
          (wrapLine b2 e2 intLabel v2 ++ '\n' ::
            (wrapLine b3 e3 compLabel v3 ++ '\n' :: wrapLine b4 e4 outLabel v4))) =
      [(popLabel, v1), (intLabel, v2), (compLabel, v3), (outLabel, v4)] ∧
    parse_pico "Population: Adults\nIntervention: Drug X\nComparison: Placebo\nOutcome: Survival" =
      [(popLabel, "Adults".data), (intLabel, "Drug X".data), (compLabel, "Placebo".data),
       (outLabel, "Survival".data)] := by
  refine ⟨?_, by decide⟩
  obtain ⟨hv1ne, hv1n, hv1r, hv1h, hv1l⟩ := hv v1 (by simp)
  obtain ⟨hv2ne, hv2n, hv2r, hv2h, hv2l⟩ := hv v2 (by simp)
  obtain ⟨hv3ne, hv3n, hv3r, hv3h, hv3l⟩ := hv v3 (by simp)
  obtain ⟨hv4ne, hv4n, hv4r, hv4h, hv4l⟩ := hv v4 (by simp)
  have hb1 := hb b1 (by simp)
  have hb2 := hb b2 (by simp)
  have hb3 := hb b3 (by simp)
  have hb4 := hb b4 (by simp)
  have he1 := he e1 (by simp)
  have he2 := he e2 (by simp)
  have he3 := he e3 (by simp)
  have he4 := he e4 (by simp)
  obtain ⟨B1, hL1, hB1⟩ := removeEmph_wrapLine b1 e1 popLabel v1 hb1 he1
    (by
      intro c h
      rw [show popLabel.head? = some 'P' from rfl] at h
      obtain rfl := Option.some.inj h
      exact ⟨by decide, by decide⟩)
    (by
      intro c h
      rw [show popLabel.getLast? = some 'n' from by decide] at h
      obtain rfl := Option.some.inj h
      exact ⟨by decide, by decide⟩)
    (by decide) (by decide) hv1r
  obtain ⟨B2, hL2, hB2⟩ := removeEmph_wrapLine b2 e2 intLabel v2 hb2 he2
    (by
      intro c h
      rw [show intLabel.head? = some 'I' from rfl] at h
      obtain rfl := Option.some.inj h
      exact ⟨by decide, by decide⟩)
    (by
      intro c h
      rw [show intLabel.getLast? = some 'n' from by decide] at h
      obtain rfl := Option.some.inj h
      exact ⟨by decide, by decide⟩)
    (by decide) (by decide) hv2r
  obtain ⟨B3, hL3, hB3⟩ := removeEmph_wrapLine b3 e3 compLabel v3 hb3 he3
    (by
      intro c h
      rw [show compLabel.head? = some 'C' from rfl] at h
      obtain rfl := Option.some.inj h
      exact ⟨by decide, by decide⟩)
    (by
      intro c h
      rw [show compLabel.getLast? = some 'n' from by decide] at h
      obtain rfl := Option.some.inj h
      exact ⟨by decide, by decide⟩)
    (by decide) (by decide) hv3r
  obtain ⟨B4, hL4, hB4⟩ := removeEmph_wrapLine b4 e4 outLabel v4 hb4 he4
    (by
      intro c h
      rw [show outLabel.head? = some 'O' from rfl] at h
      obtain rfl := Option.some.inj h
      exact ⟨by decide, by decide⟩)
    (by
      intro c h
      rw [show outLabel.getLast? = some 'e' from by decide] at h
      obtain rfl := Option.some.inj h
      exact ⟨by decide, by decide⟩)
    (by decide) (by decide) hv4r
  have hA : removeEmph (wrapLine b1 e1 popLabel v1 ++ '\n' ::
        (wrapLine b2 e2 intLabel v2 ++ '\n' ::
          (wrapLine b3 e3 compLabel v3 ++ '\n' :: wrapLine b4 e4 outLabel v4))) =
      (B1 ++ (popLabel ++ ':' :: ' ' :: v1)) ++ '\n' ::
        ((B2 ++ (intLabel ++ ':' :: ' ' :: v2)) ++ '\n' ::
          ((B3 ++ (compLabel ++ ':' :: ' ' :: v3)) ++ '\n' ::
            (B4 ++ (outLabel ++ ':' :: ' ' :: v4)))) := by
    rw [removeEmph_append_newline, removeEmph_append_newline, removeEmph_append_newline,
      hL1, hL2, hL3, hL4]
  have hne1 : ¬(List.dropWhile pyIsSpace
      (B1 ++ (popLabel ++ ':' :: ' ' :: v1))).isEmpty := by
    rw [List.isEmpty_iff, List.dropWhile_eq_nil_iff]
    intro hall
    have hP : 'P' ∈ B1 ++ (popLabel ++ ':' :: ' ' :: v1) :=
      List.mem_append_right _ (List.mem_append_left _ (by decide))
    have := hall _ hP
    simp [pyIsSpace] at this
  obtain ⟨B1', hB1'eq, hB1'⟩ := dLW_bulletish B1 (popLabel ++ ':' :: ' ' :: v1) hB1
    (by
      intro c h
      rw [show (popLabel ++ ':' :: ' ' :: v1).head? = some 'P' from rfl] at h
      obtain rfl := Option.some.inj h
      decide)
  have hlast : ∀ c, ((B1' ++ (popLabel ++ ':' :: ' ' :: v1)) ++ '\n' ::
        ((B2 ++ (intLabel ++ ':' :: ' ' :: v2)) ++ '\n' ::
          ((B3 ++ (compLabel ++ ':' :: ' ' :: v3)) ++ '\n' ::
            (B4 ++ (outLabel ++ ':' :: ' ' :: v4))))).getLast? = some c →
      pyIsSpace c = false := by
    intro c h
    rw [List.getLast?_append_of_ne_nil _ (by simp),
      getLast?_cons_of_ne_nil (by simp),
      List.getLast?_append_of_ne_nil _ (by simp),
      getLast?_cons_of_ne_nil (by simp),
      List.getLast?_append_of_ne_nil _ (by simp),
      getLast?_cons_of_ne_nil (by simp),
      getLast?_line B4 outLabel v4 hv4ne] at h
    exact hv4l c h
  have hpy : pyStrip ((B1 ++ (popLabel ++ ':' :: ' ' :: v1)) ++ '\n' ::
        ((B2 ++ (intLabel ++ ':' :: ' ' :: v2)) ++ '\n' ::
          ((B3 ++ (compLabel ++ ':' :: ' ' :: v3)) ++ '\n' ::
            (B4 ++ (outLabel ++ ':' :: ' ' :: v4))))) =
      (B1' ++ (popLabel ++ ':' :: ' ' :: v1)) ++ '\n' ::
        ((B2 ++ (intLabel ++ ':' :: ' ' :: v2)) ++ '\n' ::
          ((B3 ++ (compLabel ++ ':' :: ' ' :: v3)) ++ '\n' ::
            (B4 ++ (outLabel ++ ':' :: ' ' :: v4)))) := by
    unfold pyStrip
    rw [List.dropWhile_append, if_neg hne1, hB1'eq]
    exact dropTrailWS_eq_self hlast
  have hlines : linesOf ((B1' ++ (popLabel ++ ':' :: ' ' :: v1)) ++ '\n' ::
        ((B2 ++ (intLabel ++ ':' :: ' ' :: v2)) ++ '\n' ::
          ((B3 ++ (compLabel ++ ':' :: ' ' :: v3)) ++ '\n' ::
            (B4 ++ (outLabel ++ ':' :: ' ' :: v4))))) =
      [B1' ++ (popLabel ++ ':' :: ' ' :: v1),
       B2 ++ (intLabel ++ ':' :: ' ' :: v2),
       B3 ++ (compLabel ++ ':' :: ' ' :: v3),
       B4 ++ (outLabel ++ ':' :: ' ' :: v4)] := by
    rw [linesOf_append_newline, linesOf_append_newline, linesOf_append_newline,
      linesOf_noNL (noNL_line B1' popLabel v1 hB1' (by decide) hv1n),
      linesOf_noNL (noNL_line B2 intLabel v2 hB2 (by decide) hv2n),
      linesOf_noNL (noNL_line B3 compLabel v3 hB3 (by decide) hv3n),
      linesOf_noNL (noNL_line B4 outLabel v4 hB4 (by decide) hv4n)]
    rfl
  unfold parsePicoCore
  rw [hA, hpy, hlines]
  rw [List.foldl_cons, List.foldl_cons, List.foldl_cons, List.foldl_cons, List.foldl_nil]
  have hs1 : picoStep picoInit (B1' ++ (popLabel ++ ':' :: ' ' :: v1)) =
      [(popLabel, v1), (intLabel, []), (compLabel, []), (outLabel, [])] := by
    unfold picoStep
    rw [stripBullets_line B1' popLabel v1 hB1'
        (by
          intro c h
          rw [show popLabel.head? = some 'P' from rfl] at h
          obtain rfl := Option.some.inj h
          decide)
        (by decide) hv1ne hv1l,
      matchPico_pop v1 hv1h hv1l]
    rfl
  rw [hs1]
  have hs2 : picoStep [(popLabel, v1), (intLabel, []), (compLabel, []), (outLabel, [])]
      (B2 ++ (intLabel ++ ':' :: ' ' :: v2)) =
      [(popLabel, v1), (intLabel, v2), (compLabel, []), (outLabel, [])] := by
    unfold picoStep
    rw [stripBullets_line B2 intLabel v2 hB2
        (by
          intro c h
          rw [show intLabel.head? = some 'I' from rfl] at h
          obtain rfl := Option.some.inj h
          decide)
        (by decide) hv2ne hv2l,
      matchPico_int v2 hv2h hv2l]
    show assocSet [(popLabel, v1), (intLabel, []), (compLabel, []), (outLabel, [])]
      intLabel v2 = [(popLabel, v1), (intLabel, v2), (compLabel, []), (outLabel, [])]
    rw [assocSet_cons, if_neg (by decide), assocSet_cons, if_pos rfl]
  rw [hs2]
  have hs3 : picoStep [(popLabel, v1), (intLabel, v2), (compLabel, []), (outLabel, [])]
      (B3 ++ (compLabel ++ ':' :: ' ' :: v3)) =
      [(popLabel, v1), (intLabel, v2), (compLabel, v3), (outLabel, [])] := by
    unfold picoStep
    rw [stripBullets_line B3 compLabel v3 hB3
        (by
          intro c h
          rw [show compLabel.head? = some 'C' from rfl] at h
          obtain rfl := Option.some.inj h
          decide)
        (by decide) hv3ne hv3l,
      matchPico_comp v3 hv3h hv3l]
    show assocSet [(popLabel, v1), (intLabel, v2), (compLabel, []), (outLabel, [])]
      compLabel v3 = [(popLabel, v1), (intLabel, v2), (compLabel, v3), (outLabel, [])]
    rw [assocSet_cons, if_neg (by decide), assocSet_cons, if_neg (by decide),
      assocSet_cons, if_pos rfl]
  rw [hs3]
  have hs4 : picoStep [(popLabel, v1), (intLabel, v2), (compLabel, v3), (outLabel, [])]
      (B4 ++ (outLabel ++ ':' :: ' ' :: v4)) =
      [(popLabel, v1), (intLabel, v2), (compLabel, v3), (outLabel, v4)] := by
    unfold picoStep
    rw [stripBullets_line B4 outLabel v4 hB4
        (by
          intro c h
          rw [show outLabel.head? = some 'O' from rfl] at h
          obtain rfl := Option.some.inj h
          decide)
        (by decide) hv4ne hv4l,
      matchPico_out v4 hv4h hv4l]
    show assocSet [(popLabel, v1), (intLabel, v2), (compLabel, v3), (outLabel, [])]
      outLabel v4 = [(popLabel, v1), (intLabel, v2), (compLabel, v3), (outLabel, v4)]
    rw [assocSet_cons, if_neg (by decide), assocSet_cons, if_neg (by decide),
      assocSet_cons, if_neg (by decide), assocSet_cons, if_pos rfl]
  rw [hs4]

theorem concrete_head_sp (v : List Char)
    (hv : (v.head?.map pyIsSpace).getD false = false) :
    ∀ c, v.head? = some c → pyIsSpace c = false := by
  intro c h
  rw [h] at hv
  simpa using hv

theorem concrete_last_sp (v : List Char)
    (hv : (v.getLast?.map pyIsSpace).getD false = false) :
    ∀ c, v.getLast? = some c → pyIsSpace c = false := by
  intro c h
  rw [h] at hv
  simpa using hv

theorem claim_C3_witness :
    ((∀ v ∈ ["Adults".data, "Drug X".data, "Placebo".data, "Survival".data],
        v ≠ [] ∧ ('\n' : Char) ∉ v ∧ removeEmph v = v ∧
        (∀ c, v.head? = some c → pyIsSpace c = false) ∧
        (∀ c, v.getLast? = some c → pyIsSpace c = false)) ∧
      (∀ b ∈ [" - ".data, "* ".data, ([] : List Char), "-".data], ∀ c ∈ b, bulletChar c) ∧
      (∀ e ∈ ["**".data, ([] : List Char), "__".data, "**".data],
        e = [] ∨ e = "**".data ∨ e = "__".data)) ∧
    parsePicoCore
        (wrapLine " - ".data "**".data popLabel "Adults".data ++ '\n' ::
          (wrapLine "* ".data [] intLabel "Drug X".data ++ '\n' ::
            (wrapLine "-".data "__".data compLabel "Placebo".data ++ '\n' ::
              wrapLine "**".data "**".data outLabel "Survival".data))) =
      [(popLabel, "Adults".data), (intLabel, "Drug X".data), (compLabel, "Placebo".data),
       (outLabel, "Survival".data)] := by
  refine ⟨⟨?_, ?_, ?_⟩, ?_⟩
  · intro v hvv
    fin_cases hvv <;>
      exact ⟨by decide, by decide, by decide, concrete_head_sp _ (by decide),
        concrete_last_sp _ (by decide)⟩
  · intro b hbb
    fin_cases hbb <;> (intro c hc; fin_cases hc <;> simp [bulletChar])
  · intro e hee
    fin_cases hee <;> simp
  · exact (claim_C3 "Adults".data "Drug X".data "Placebo".data "Survival".data
      " - ".data "* ".data [] "-".data "**".data [] "__".data "**".data
      (by
        intro v hvv
        fin_cases hvv <;>
          exact ⟨by decide, by decide, by decide, concrete_head_sp _ (by decide),
            concrete_last_sp _ (by decide)⟩)
      (by
        intro b hbb
        fin_cases hbb <;> (intro c hc; fin_cases hc <;> simp [bulletChar]))
      (by
        intro e hee
        fin_cases hee <;> simp)).1

/-- C6 (counterexample).  The claim says every generate entry point raises a
    declared failure when the LLM returns empty text.  In the source the four
    entry points parse the stripped reply without any emptiness check, so on an
    empty reply every one of them returns successfully (with the parser's empty
    skeleton), raising nothing. -/
theorem claim_C6_counterexample :
    (generate_pico_from_title (Except.ok [])).isOk = true ∧
    (refine_pico_elements picoInit (Except.ok [])).isOk = true ∧
    (generate_concepts_from_pico picoInit (Except.ok [])).isOk = true ∧
    (generate_search_terms_all [] (Except.ok [])).isOk = true := by
  decide

/-- C6 (amended).  When the LLM reply is empty or whitespace-only, the four
    generate entry points of src/ai_utils.py do not raise: they return the
    empty-skeleton PICO record, the empty concept list and the empty term
    mapping respectively.  The declared EmptyResponse failure exists only in
    gpt_api_call of src/gpt_helper.py, which the entry points do not call. -/
theorem claim_C6 (c : List Char) (hc : ∀ a ∈ c, pyIsSpace a)
    (p : List (List Char × List Char)) (cs : List (List Char)) :
    generate_pico_from_title (Except.ok c) = Except.ok picoInit ∧
    refine_pico_elements p (Except.ok c) = Except.ok picoInit ∧
    generate_concepts_from_pico p (Except.ok c) = Except.ok [] ∧
    generate_search_terms_all cs (Except.ok c) = Except.ok [] ∧
    gpt_api_call c = Except.error "LLM returned no content to parse" := by
  have h0 : pyStrip c = [] := pyStrip_allsp hc
  refine ⟨?_, ?_, ?_, ?_, ?_⟩
  · show Except.ok (parsePicoCore (pyStrip c)) = Except.ok picoInit
    rw [h0]
    rfl
  · show Except.ok (parsePicoCore (pyStrip c)) = Except.ok picoInit
    rw [h0]
    rfl
  · show Except.ok (parseConceptsCore (pyStrip c)) = Except.ok []
    rw [h0]
    rfl
  · show Except.ok (parseSearchTermsCore (pyStrip c)) = Except.ok []
    rw [h0]
    rfl
  · show (if pyStrip c = [] then
        (Except.error "LLM returned no content to parse" : Except String (List Char))
      else Except.ok (pyStrip c)) = Except.error "LLM returned no content to parse"
    rw [h0]
    rfl

theorem claim_C6_witness :
    (∀ a ∈ [' ', '\n', '\t'], pyIsSpace a) ∧
    generate_pico_from_title (Except.ok [' ', '\n', '\t']) = Except.ok picoInit ∧
    gpt_api_call [' ', '\n', '\t'] = Except.error "LLM returned no content to parse" := by
  refine ⟨by decide, ?_, ?_⟩
  · exact (claim_C6 [' ', '\n', '\t'] (by decide) picoInit []).1
  · exact (claim_C6 [' ', '\n', '\t'] (by decide) picoInit []).2.2.2.2

/-- C8 (counterexample).  The per-line strip of parse_concepts is not
    idempotent: stripping 1. 2. Diabetes once yields 2. Diabetes, which still
    begins with a numeric ordinal and a dot, so a second strip removes more. -/
theorem claim_C8_counterexample :
    conceptOfLine (conceptOfLine "1. 2. Diabetes".data) ≠
      conceptOfLine "1. 2. Diabetes".data := by
  decide

/-- C8 (amended).  The strip is idempotent exactly on lines whose stripped form
    does not itself begin with a digits-then-dot marker: under that proviso a
    second application changes nothing (the trim alone is idempotent). -/
theorem claim_C8 (x : List Char)
    (h : ¬((conceptOfLine x).takeWhile Char.isDigit ≠ [] ∧
        ((conceptOfLine x).drop
          ((conceptOfLine x).takeWhile Char.isDigit).length).head? = some '.')) :
    conceptOfLine (conceptOfLine x) = conceptOfLine x := by
  rw [conceptOfLine, stripNumDot, if_neg h]
  exact pyStrip_idem _

theorem claim_C8_witness :
    (¬((conceptOfLine "1. abc".data).takeWhile Char.isDigit ≠ [] ∧
        ((conceptOfLine "1. abc".data).drop
          ((conceptOfLine "1. abc".data).takeWhile Char.isDigit).length).head? =
            some '.')) ∧
    conceptOfLine (conceptOfLine "1. abc".data) = conceptOfLine "1. abc".data :=
  ⟨by decide, claim_C8 "1. abc".data (by decide)⟩

/-- C9.  parse_concepts returns exactly the per-line stripped values of the
    input lines with the empty results dropped: this preserves input order and
    duplicates, and no element of the result is the empty string. -/
theorem claim_C9 (t : List Char) :
    parseConceptsCore t =
      ((linesOf (pyStrip t)).map conceptOfLine).filter (fun c => c ≠ []) ∧
    ∀ c ∈ parseConceptsCore t, c ≠ [] := by
  refine ⟨parseConceptsCore_eq t, ?_⟩
  intro c hc
  rw [parseConceptsCore_eq t] at hc
  have := List.of_mem_filter hc
  simpa using this

theorem claim_C9_witness :
    parseConceptsCore "a\n\nb\nb".data =
        ((linesOf (pyStrip "a\n\nb\nb".data)).map conceptOfLine).filter
          (fun c => c ≠ []) ∧
    "a".data ∈ parseConceptsCore "a\n\nb\nb".data ∧ "a".data ≠ [] := by
  refine ⟨(claim_C9 "a\n\nb\nb".data).1, by decide,
    (claim_C9 "a\n\nb\nb".data).2 "a".data (by decide)⟩

end SearchAssistant
